import Mathlib

/-!
Verification of the OCB3 mode wrapper (`lib/Crypto/Cipher/_mode_ocb.py`).

The Python file in the repository contains the session state machine
(`OcbMode.update / encrypt / decrypt / digest / verify`), the partial-block
buffering (`_cache_A`, `_cache_P`, `_transcrypt`) and the nonce → Offset_0
derivation.  The per-block OCB3 arithmetic (functions `OCB_start_operation`,
`OCB_update`, `OCB_encrypt`, `OCB_decrypt`, `OCB_digest` of the C library
`_raw_ocb`) is not part of the repository sources; those operations are
modelled from the specification (sections 4.1 - 4.6 and 4.8) and are marked
`Modelled from the spec` below.  Everything else is translated directly from
the Python source.

Byte strings are modelled as `List Nat` (one entry per byte); the block
cipher is an abstract pair of functions `EK DK : List Nat → List Nat`
standing for single-block ECB encryption and decryption under the key.
-/

namespace OCB

/-- A byte string: one `Nat` per byte. -/
abbrev Bytes := List Nat

/-- `Crypto.Util.strxor.strxor`: byte-wise XOR of two byte strings. -/
def strxor (a b : Bytes) : Bytes := List.zipWith Nat.xor a b

/-- `Crypto.Util.number.bytes_to_long`: big-endian bytes to integer. -/
def bytesToNat (l : Bytes) : Nat := l.foldl (fun a c => a * 256 + c) 0

/-- `Crypto.Util.number.long_to_bytes(x, n)`: integer to `n` big-endian bytes
(low `8*n` bits of `x`). -/
def natToBytes : Nat → Nat → Bytes
  | 0, _ => []
  | n + 1, x => natToBytes n (x / 256) ++ [x % 256]

/-- Modelled from the spec (section 4.1, GF(2^128) doubling, part of the C
`_raw_ocb` library): shift left one bit, and XOR 0x87 into the last byte
when the dropped top bit was set. -/
def double (x : Bytes) : Bytes :=
  let n := bytesToNat x
  natToBytes 16 ((n * 2) % 2 ^ 128 ^^^ (if 2 ^ 127 ≤ n then 0x87 else 0))

/-- Number of trailing zero bits, computed with an explicit fuel argument so
that it reduces in the kernel. -/
def ntzAux : Nat → Nat → Nat
  | 0, _ => 0
  | f + 1, n => if n % 2 = 1 ∨ n = 0 then 0 else ntzAux f (n / 2) + 1

/-- `ntz(i)`: number of trailing zeros of `i` (spec section 4.3). -/
def ntz (n : Nat) : Nat := ntzAux n n

/-- Split a byte string into its full 16-byte blocks and its partial tail,
with an explicit fuel argument so that it reduces in the kernel. -/
def chunkAux : Nat → Bytes → List Bytes × Bytes
  | 0, l => ([], l)
  | f + 1, l =>
    if 16 ≤ l.length then
      let r := chunkAux f (l.drop 16)
      (l.take 16 :: r.1, r.2)
    else ([], l)

/-- Full 16-byte blocks of a byte string together with the trailing
partial block (0..15 bytes). -/
def chunk (l : Bytes) : List Bytes × Bytes := chunkAux l.length l

/-- Modelled from the spec (section 4.2): `L_star = E_K(0^128)`. -/
def Lstar (EK : Bytes → Bytes) : Bytes := EK (List.replicate 16 0)

/-- Modelled from the spec (section 4.2): `L_dollar = double(L_star)`. -/
def Ldollar (EK : Bytes → Bytes) : Bytes := double (Lstar EK)

/-- Modelled from the spec (section 4.2): `L(0) = double(L_dollar)`,
`L(i) = double(L(i-1))`. -/
def Ltree (EK : Bytes → Bytes) : Nat → Bytes
  | 0 => double (Ldollar EK)
  | i + 1 => double (Ltree EK i)

/-- Modelled from the spec (sections 4.5, 4.6): `X* || 0x80 || 0x00...`
padding of a partial block to 16 bytes. -/
def padBlock (t : Bytes) : Bytes := t ++ [0x80] ++ List.replicate (15 - t.length) 0

/-- Modelled from the spec (section 3): the state kept by the C `_raw_ocb`
library between calls - running offsets, accumulators and block counters of
the associated-data stream and of the message stream. -/
structure Core where
  offA : Bytes
  sumA : Bytes
  idxA : Nat
  offM : Bytes
  chkM : Bytes
  idxM : Nat
  deriving DecidableEq

/-- Modelled from the spec (section 4.5): absorb one full 16-byte block of
associated data. -/
def absorbBlockStep (EK : Bytes → Bytes) (c : Core) (a : Bytes) : Core :=
  let off := strxor c.offA (Ltree EK (ntz (c.idxA + 1)))
  { c with offA := off, idxA := c.idxA + 1,
           sumA := strxor c.sumA (EK (strxor a off)) }

/-- Modelled from the spec (section 4.5): absorb the final non-empty partial
block of associated data. -/
def adFinalStep (EK : Bytes → Bytes) (c : Core) (t : Bytes) : Core :=
  let off := strxor c.offA (Lstar EK)
  { c with offA := off, sumA := strxor c.sumA (EK (strxor (padBlock t) off)) }

/-- Modelled from the spec (sections 4.5): the C `OCB_update` call - absorb
the full blocks of `d`, then the partial tail if `d` is unaligned (the
Python layer only ever passes an unaligned `d` for the very last piece of
associated data). -/
def OCB_update (EK : Bytes → Bytes) (c : Core) (d : Bytes) : Core :=
  let ch := chunk d
  let c1 := List.foldl (absorbBlockStep EK) c ch.1
  if ch.2 = [] then c1 else adFinalStep EK c1 ch.2

/-- One full-block transformation step and one final partial-block step of
the message stream: the shape of the C `OCB_encrypt` / `OCB_decrypt`. -/
structure BlockProc where
  step : Core → Bytes → Bytes × Core
  final : Core → Bytes → Bytes × Core

/-- Modelled from the spec (section 4.6): encrypt one full plaintext block. -/
def encBlockStep (EK : Bytes → Bytes) (c : Core) (p : Bytes) : Bytes × Core :=
  let off := strxor c.offM (Ltree EK (ntz (c.idxM + 1)))
  (strxor off (EK (strxor p off)),
   { c with offM := off, chkM := strxor c.chkM p, idxM := c.idxM + 1 })

/-- Modelled from the spec (section 4.6): decrypt one full ciphertext block. -/
def decBlockStep (EK DK : Bytes → Bytes) (c : Core) (ct : Bytes) : Bytes × Core :=
  let off := strxor c.offM (Ltree EK (ntz (c.idxM + 1)))
  let p := strxor off (DK (strxor ct off))
  (p, { c with offM := off, chkM := strxor c.chkM p, idxM := c.idxM + 1 })

/-- Modelled from the spec (section 4.6): encrypt the final non-empty
partial plaintext block. -/
def encTailStep (EK : Bytes → Bytes) (c : Core) (t : Bytes) : Bytes × Core :=
  let off := strxor c.offM (Lstar EK)
  let pad := EK off
  (strxor t (pad.take t.length),
   { c with offM := off, chkM := strxor c.chkM (padBlock t) })

/-- Modelled from the spec (section 4.6): decrypt the final non-empty
partial ciphertext block (the checksum is updated with the recovered
plaintext). -/
def decTailStep (EK : Bytes → Bytes) (c : Core) (ct : Bytes) : Bytes × Core :=
  let off := strxor c.offM (Lstar EK)
  let pad := EK off
  let p := strxor ct (pad.take ct.length)
  (p, { c with offM := off, chkM := strxor c.chkM (padBlock p) })

/-- The C `OCB_encrypt` as a `BlockProc` (spec section 4.6). -/
def OCB_encrypt (EK : Bytes → Bytes) : BlockProc :=
  { step := encBlockStep EK, final := encTailStep EK }

/-- The C `OCB_decrypt` as a `BlockProc` (spec section 4.6). -/
def OCB_decrypt (EK DK : Bytes → Bytes) : BlockProc :=
  { step := decBlockStep EK DK, final := decTailStep EK }

/-- Process a list of full 16-byte blocks, returning the emitted blocks and
the new core state. -/
def procBlocks (P : BlockProc) : Core → List Bytes → List Bytes × Core
  | c, [] => ([], c)
  | c, b :: bs =>
    let r := P.step c b
    let rs := procBlocks P r.2 bs
    (r.1 :: rs.1, rs.2)

/-- Modelled from the spec (section 4.6): one C-library transcryption call
on a raw byte string - process the full blocks, then the partial tail if
the data is unaligned (the Python layer only passes an unaligned `d` as
the very last call of the stream). -/
def procData (P : BlockProc) (c : Core) (d : Bytes) : Bytes × Core :=
  let ch := chunk d
  let r := procBlocks P c ch.1
  if ch.2 = [] then (r.1.flatten, r.2)
  else
    let rt := P.final r.2 ch.2
    (r.1.flatten ++ rt.1, rt.2)

/-- Modelled from the spec (section 4.8): the C `OCB_digest` call -
`E_K(checksum XOR offset XOR L_dollar) XOR sum_ad` (full 16-byte tag,
truncation to `mac_len` bytes happens in the Python layer). -/
def OCB_digest (EK : Bytes → Bytes) (c : Core) : Bytes :=
  strxor (EK (strxor c.chkM (strxor c.offM (Ldollar EK)))) c.sumA

/-- Source `OcbMode.__init__` lines 168-170: the nonce block
`bchr(mac_len << 4 & 0xFF) + bchr(0)*(14 - len(nonce)) + bchr(1) + nonce`. -/
def nonceBlock (macLen : Nat) (nonce : Bytes) : Bytes :=
  [(macLen <<< 4) &&& 0xFF] ++ List.replicate (14 - nonce.length) 0 ++ [1] ++ nonce

/-- Source `OcbMode.__init__` lines 174-175 applied to an arbitrary `ktop`
and `bottom`: `long_to_bytes(bytes_to_long(stretch) >> (64 - bottom), 24)[8:]`
where `stretch = ktop + strxor(ktop[:8], ktop[1:9])`. -/
def rawOffset0 (ktop : Bytes) (bottom : Nat) : Bytes :=
  let stretch := ktop ++ strxor (ktop.take 8) ((ktop.drop 1).take 8)
  (natToBytes 24 (bytesToNat stretch >>> (64 - bottom))).drop 8

/-- Source `OcbMode.__init__` lines 166-175: the full Offset_0 derivation
from nonce and tag length. -/
def offset0 (EK : Bytes → Bytes) (macLen : Nat) (nonce : Bytes) : Bytes :=
  let nb := nonceBlock macLen nonce
  let bottom := nb.getD 15 0 &&& 0x3F
  let ktop := EK (nb.take 15 ++ [nb.getD 15 0 &&& 0xC0])
  rawOffset0 ktop bottom

/-- Modelled from the spec (sections 3 and 4.4): the C `OCB_start_operation`
call - fresh core state with zero accumulators, the AD offset at zero and
the message offset at Offset_0. -/
def OCB_start_operation (offset_0 : Bytes) : Core :=
  { offA := List.replicate 16 0, sumA := List.replicate 16 0, idxA := 0,
    offM := offset_0, chkM := List.replicate 16 0, idxM := 0 }

/-- The errors the Python layer can raise (all `TypeError`/`ValueError` in
the source; named after the spec's error kinds, section 7). -/
inductive Err
  | InvalidSequence
  | PendingData
  | MacMismatch
  deriving DecidableEq

/-- The five methods that can appear in the source's `self._next` list. -/
inductive Op
  | update
  | encrypt
  | decrypt
  | digest
  | verify
  deriving DecidableEq

/-- The Python `OcbMode` object state: the C core state plus the caches,
the cached tag, the exposed tag length and the allowed-next method list. -/
structure Sess where
  core : Core
  macLen : Nat
  macTag : Option Bytes
  cacheA : Bytes
  cacheP : Bytes
  next : List Op
  deriving DecidableEq

/-- Source line 163-164: `self._next` right after initialization. -/
def initNext : List Op := [Op.update, Op.encrypt, Op.decrypt, Op.digest, Op.verify]

/-- Source line 233-234: `self._next` after an `update()` call. -/
def updNext : List Op := [Op.encrypt, Op.decrypt, Op.digest, Op.verify, Op.update]

/-- Source `OcbMode.__init__`: a fresh session (argument validation -
nonce length 1..15, mac_len 8..16 - is assumed to have passed). -/
def ocbNew (EK : Bytes → Bytes) (nonce : Bytes) (macLen : Nat) : Sess :=
  { core := OCB_start_operation (offset0 EK macLen nonce),
    macLen := macLen, macTag := none, cacheA := [], cacheP := [],
    next := initNext }

/-- Source `OcbMode.update` (lines 208-251).  The single recursive call
`self.update(seg)` - made with `self._cache_A` emptied and a 16-byte
segment, so that it just absorbs that one block - is unfolded in place. -/
def update (EK : Bytes → Bytes) (s : Sess) (ad : Bytes) : Except Err Unit × Sess :=
  if Op.update ∈ s.next then
    let s := { s with next := updNext }
    if 0 < s.cacheA.length then
      let filler := min (16 - s.cacheA.length) ad.length
      let cacheA1 := s.cacheA ++ ad.take filler
      let ad1 := ad.drop filler
      if cacheA1.length < 16 then (.ok (), { s with cacheA := cacheA1 })
      else
        let s1 := { s with cacheA := [], core := OCB_update EK s.core cacheA1 }
        let updLen := ad1.length / 16 * 16
        (.ok (), { s1 with core := OCB_update EK s1.core (ad1.take updLen),
                           cacheA := ad1.drop updLen })
    else
      let updLen := ad.length / 16 * 16
      (.ok (), { s with core := OCB_update EK s.core (ad.take updLen),
                        cacheA := ad.drop updLen })
  else (.error .InvalidSequence, s)

/-- Source `OcbMode._transcrypt` (lines 266-308), parameterized like the
source by the transformation function. -/
def transcrypt (P : BlockProc) (s : Sess) (inp : Option Bytes) : Bytes × Sess :=
  match inp with
  | none =>
    let r := procData P s.core s.cacheP
    (r.1, { s with core := r.2, cacheP := [] })
  | some ind =>
    if 0 < s.cacheP.length then
      let filler := min (16 - s.cacheP.length) ind.length
      let cache1 := s.cacheP ++ ind.take filler
      let ind1 := ind.drop filler
      if cache1.length < 16 then ([], { s with cacheP := cache1 })
      else
        let rp := procData P s.core cache1
        let tl := ind1.length / 16 * 16
        let rr := procData P rp.2 (ind1.take tl)
        (rp.1 ++ rr.1, { s with core := rr.2, cacheP := ind1.drop tl })
    else
      let tl := ind.length / 16 * 16
      let rr := procData P s.core (ind.take tl)
      (rr.1, { s with core := rr.2, cacheP := ind.drop tl })

/-- Source `OcbMode.encrypt` (lines 310-334). -/
def encrypt (EK : Bytes → Bytes) (s : Sess) (inp : Option Bytes) :
    Except Err Bytes × Sess :=
  if Op.encrypt ∈ s.next then
    let nxt := match inp with
      | none => [Op.digest]
      | some _ => [Op.encrypt, Op.digest]
    let r := transcrypt (OCB_encrypt EK) { s with next := nxt } inp
    (.ok r.1, r.2)
  else (.error .InvalidSequence, s)

/-- Source `OcbMode.decrypt` (lines 336-360).  Note line 359: after
`decrypt(data)` the allowed-next list is `[decrypt, digest]`. -/
def decrypt (EK DK : Bytes → Bytes) (s : Sess) (inp : Option Bytes) :
    Except Err Bytes × Sess :=
  if Op.decrypt ∈ s.next then
    let nxt := match inp with
      | none => [Op.verify]
      | some _ => [Op.decrypt, Op.digest]
    let r := transcrypt (OCB_decrypt EK DK) { s with next := nxt } inp
    (.ok r.1, r.2)
  else (.error .InvalidSequence, s)

/-- Source `OcbMode._compute_mac_tag` (lines 362-379): flush any cached
associated data, compute the 16-byte tag and cache its first `mac_len`
bytes. -/
def computeMacTag (EK : Bytes → Bytes) (s : Sess) : Sess :=
  if s.macTag.isSome then s
  else
    let s1 := if 0 < s.cacheA.length then
        { s with core := OCB_update EK s.core s.cacheA, cacheA := [] }
      else s
    { s1 with macTag := some ((OCB_digest EK s1.core).take s1.macLen) }

/-- Source `OcbMode.digest` (lines 381-405). -/
def digest (EK : Bytes → Bytes) (s : Sess) : Except Err Bytes × Sess :=
  if Op.digest ∈ s.next then
    if 0 < s.cacheP.length then (.error .PendingData, s)
    else
      let s1 := { s with next := [Op.digest] }
      let s2 := if s1.macTag.isNone then computeMacTag EK s1 else s1
      (.ok (s2.macTag.getD []), s2)
  else (.error .InvalidSequence, s)

/-- Source `OcbMode.verify` (lines 416-450).  The constant-time comparison
of the two tags through keyed BLAKE2s hashes (an external collaborator) is
modelled as plain equality of the tags. -/
def verify (EK : Bytes → Bytes) (s : Sess) (recv : Bytes) :
    Except Err Unit × Sess :=
  if Op.verify ∈ s.next then
    if 0 < s.cacheP.length then (.error .PendingData, s)
    else
      let s1 := { s with next := [Op.verify] }
      let s2 := if s1.macTag.isNone then computeMacTag EK s1 else s1
      if s2.macTag = some recv then (.ok (), s2)
      else (.error .MacMismatch, s2)
  else (.error .InvalidSequence, s)

/-- Sequencing helper: run the continuation on the produced value and
state, propagating a raised error like the Python exception would. -/
def andThen (p : Except Err α × Sess) (f : α → Sess → Except Err β) :
    Except Err β :=
  match p with
  | (.ok a, s) => f a s
  | (.error e, _) => .error e

/-- Source `OcbMode.encrypt_and_digest` (lines 467-480):
`self.encrypt(plaintext) + self.encrypt(), self.digest()`. -/
def encrypt_and_digest (EK : Bytes → Bytes) (s : Sess) (pt : Bytes) :
    Except Err (Bytes × Bytes) :=
  andThen (encrypt EK s (some pt)) fun c1 s1 =>
  andThen (encrypt EK s1 none) fun c2 s2 =>
  andThen (digest EK s2) fun tag _ => .ok (c1 ++ c2, tag)

/-- Source `OcbMode.decrypt_and_verify` (lines 482-499). -/
def decrypt_and_verify (EK DK : Bytes → Bytes) (s : Sess) (ct tag : Bytes) :
    Except Err Bytes :=
  andThen (decrypt EK DK s (some ct)) fun p1 s1 =>
  andThen (decrypt EK DK s1 none) fun p2 s2 =>
  andThen (verify EK s2 tag) fun _ _ => .ok (p1 ++ p2)

/-- Feed a list of associated-data segments through successive `update`
calls. -/
def runUpdates (EK : Bytes → Bytes) : Sess → List Bytes → Except Err Sess
  | s, [] => .ok s
  | s, a :: rest =>
    match update EK s a with
    | (.ok _, s1) => runUpdates EK s1 rest
    | (.error e, _) => .error e

/-- Feed a list of plaintext segments through successive `encrypt(data)`
calls, concatenating the emitted ciphertext. -/
def runEncrypts (EK : Bytes → Bytes) : Sess → List Bytes → Except Err (Bytes × Sess)
  | s, [] => .ok ([], s)
  | s, p :: rest =>
    match encrypt EK s (some p) with
    | (.ok out, s1) =>
      match runEncrypts EK s1 rest with
      | .ok (outs, s2) => .ok (out ++ outs, s2)
      | .error e => .error e
    | (.error e, _) => .error e

/-- Feed a list of ciphertext segments through successive `decrypt(data)`
calls, concatenating the emitted plaintext. -/
def runDecrypts (EK DK : Bytes → Bytes) : Sess → List Bytes → Except Err (Bytes × Sess)
  | s, [] => .ok ([], s)
  | s, c :: rest =>
    match decrypt EK DK s (some c) with
    | (.ok out, s1) =>
      match runDecrypts EK DK s1 rest with
      | .ok (outs, s2) => .ok (out ++ outs, s2)
      | .error e => .error e
    | (.error e, _) => .error e

/-- A whole streamed encryption session: AD segments through `update`,
plaintext segments through `encrypt`, then `encrypt(None)` and `digest()`;
returns the concatenated ciphertext and the tag. -/
def streamEncDigest (EK : Bytes → Bytes) (nonce : Bytes) (macLen : Nat)
    (As Ps : List Bytes) : Except Err (Bytes × Bytes) :=
  match runUpdates EK (ocbNew EK nonce macLen) As with
  | .error e => .error e
  | .ok s1 =>
    match runEncrypts EK s1 Ps with
    | .error e => .error e
    | .ok (cts, s2) =>
      andThen (encrypt EK s2 none) fun ctf s3 =>
      andThen (digest EK s3) fun tag _ => .ok (cts ++ ctf, tag)

/-- One-shot encryption: a single `update(A)` followed by the source's
`encrypt_and_digest(P)`. -/
def oneShotEncDigest (EK : Bytes → Bytes) (nonce : Bytes) (macLen : Nat)
    (A P : Bytes) : Except Err (Bytes × Bytes) :=
  andThen (update EK (ocbNew EK nonce macLen) A) fun _ s =>
  encrypt_and_digest EK s P

/-- One-shot decryption: a single `update(A)` followed by the source's
`decrypt_and_verify(C, tag)`. -/
def oneShotDecVerify (EK DK : Bytes → Bytes) (nonce : Bytes) (macLen : Nat)
    (A ct tag : Bytes) : Except Err Bytes :=
  andThen (update EK (ocbNew EK nonce macLen) A) fun _ s =>
  decrypt_and_verify EK DK s ct tag

/-- A streamed encryption without associated data, ended by
`encrypt(None)`: the setting of the length-preservation property. -/
def streamEnc (EK : Bytes → Bytes) (nonce : Bytes) (macLen : Nat)
    (Ps : List Bytes) : Except Err (Bytes × Sess) :=
  match runEncrypts EK (ocbNew EK nonce macLen) Ps with
  | .error e => .error e
  | .ok (outs, s) =>
    match encrypt EK s none with
    | (.ok outf, s1) => .ok (outs ++ outf, s1)
    | (.error e, _) => .error e

/-- A streamed decryption without associated data, ended by
`decrypt(None)`. -/
def streamDec (EK DK : Bytes → Bytes) (nonce : Bytes) (macLen : Nat)
    (Cs : List Bytes) : Except Err (Bytes × Sess) :=
  match runDecrypts EK DK (ocbNew EK nonce macLen) Cs with
  | .error e => .error e
  | .ok (outs, s) =>
    match decrypt EK DK s none with
    | (.ok outf, s1) => .ok (outs ++ outf, s1)
    | (.error e, _) => .error e

/-- The mathematical normal form of a whole encryption session: AD blocks
absorbed, message blocks encrypted, tail encrypted, cached AD tail
absorbed, tag computed.  Both the streamed and the one-shot pipelines are
proved equal to it. -/
def ocbNF (EK : Bytes → Bytes) (nonce : Bytes) (macLen : Nat) (A P : Bytes) :
    Bytes × Bytes :=
  let c0 := OCB_start_operation (offset0 EK macLen nonce)
  let cA := List.foldl (absorbBlockStep EK) c0 (chunk A).1
  let rB := procBlocks (OCB_encrypt EK) cA (chunk P).1
  let rT := procData (OCB_encrypt EK) rB.2 (chunk P).2
  let cF := OCB_update EK rT.2 (chunk A).2
  (rB.1.flatten ++ rT.1, (OCB_digest EK cF).take macLen)

/-- The claim's reading of the spec's nonce-block construction (spec
section 4.4 steps 1-2, as quoted by the claim): first byte
`(tag_len*8 mod 128) << 1`, then `15 - len(N)` zero bytes, then `0x01`,
then `N`. -/
def specNonceBlock (tagLen : Nat) (N : Bytes) : Bytes :=
  [((tagLen * 8) % 128) <<< 1] ++ List.replicate (15 - N.length) 0 ++ [1] ++ N

/-- The 16-byte block the source actually hands to the block cipher
(line 172): the first 15 bytes of the nonce block, then its byte at index
15 with the low six bits cleared. -/
def handedNonceBlock (macLen : Nat) (nonce : Bytes) : Bytes :=
  (nonceBlock macLen nonce).take 15 ++ [(nonceBlock macLen nonce).getD 15 0 &&& 0xC0]

/-- The spec's wording of the Offset_0 extraction (spec section 4.4 step 7):
the 192-bit Stretch shifted left by `bottom` bits, discarding the top
`bottom` bits, then bits 64..191 of the shifted 24-byte value. -/
def specOffset0 (ktop : Bytes) (bottom : Nat) : Bytes :=
  let stretch := ktop ++ strxor (ktop.take 8) ((ktop.drop 1).take 8)
  natToBytes 16 (((bytesToNat stretch <<< bottom) % 2 ^ 192) >>> 64)

/-- Whether a Python-layer call returned normally. -/
def isOkB : Except Err α → Bool
  | .ok _ => true
  | .error _ => false

/-- The payload of a normal return, or a default. -/
def okOr (d : α) : Except Err α → α
  | .ok a => a
  | .error _ => d

/-- The length well-formedness every reachable session satisfies: 16-byte
offsets and accumulators, a small AD cache, a cached tag of the exposed
length, and `mac_len` at most the block size. -/
def WFSess (s : Sess) : Prop :=
  s.core.offM.length = 16 ∧ s.core.chkM.length = 16 ∧
  s.core.sumA.length = 16 ∧ s.core.offA.length = 16 ∧
  s.cacheA.length < 16 ∧ s.macLen ≤ 16 ∧
  (match s.macTag with
   | none => True
   | some tg => tg.length = s.macLen)

/-- A sample fresh session over the identity block cipher, used by the
concrete counterexample and witness theorems. -/
def sampleSess : Sess := ocbNew id [1] 16

/-- A sample session that holds one buffered message byte: `encrypt`
was called with the single byte `5`. -/
def samplePending : Sess := (encrypt id sampleSess (some [5])).2

/-- A sample finalized session: `encrypt(None)` was called on a fresh
session, so `digest()` is the only permitted call. -/
def sampleFinal : Sess := (encrypt id sampleSess none).2

theorem strxor_length (a b : Bytes) : (strxor a b).length = min a.length b.length := by
  simp [strxor]

theorem strxor_comm (a : Bytes) : ∀ b, strxor a b = strxor b a := by
  induction a with
  | nil => intro b; cases b <;> simp [strxor]
  | cons x xs ih =>
    intro b
    cases b with
    | nil => simp [strxor]
    | cons y ys =>
      simp only [strxor, List.zipWith_cons_cons, List.cons.injEq]
      exact ⟨Nat.xor_comm x y, ih ys⟩

theorem strxor_cancel_left (a : Bytes) : ∀ b, a.length = b.length →
    strxor a (strxor a b) = b := by
  induction a with
  | nil => intro b hb; cases b <;> simp_all [strxor]
  | cons x xs ih =>
    intro b hb
    cases b with
    | nil => simp at hb
    | cons y ys =>
      simp only [List.length_cons, Nat.succ_inj] at hb
      simp only [strxor, List.zipWith_cons_cons, List.cons.injEq]
      constructor
      · show x ^^^ (x ^^^ y) = y
        rw [← Nat.xor_assoc, Nat.xor_self, Nat.zero_xor]
      · exact ih ys hb

theorem strxor_cancel_out (a b : Bytes) (h : a.length = b.length) :
    strxor (strxor a b) a = b := by
  rw [strxor_comm, strxor_cancel_left a b h]

theorem strxor_cancel_right (a b : Bytes) (h : a.length = b.length) :
    strxor (strxor a b) b = a := by
  rw [strxor_comm a b, strxor_cancel_out b a h.symm]

theorem chunkAux_fuel : ∀ (n : Nat) (l : Bytes), l.length ≤ n →
    chunkAux n l = chunkAux l.length l := by
  intro n
  induction n using Nat.strong_induction_on with
  | _ n ih =>
    intro l hl
    match n with
    | 0 =>
      have : l.length = 0 := Nat.le_zero.mp hl
      rw [this]
    | k + 1 =>
      by_cases h16 : 16 ≤ l.length
      · obtain ⟨m, hm⟩ : ∃ m, l.length = m + 1 := ⟨l.length - 1, by omega⟩
        have hdl : (l.drop 16).length = l.length - 16 := by simp
        rw [hm]
        simp only [chunkAux, h16, if_true]
        have h1 : chunkAux k (l.drop 16) = chunkAux (l.drop 16).length (l.drop 16) :=
          ih k (by omega) (l.drop 16) (by omega)
        have h2 : chunkAux m (l.drop 16) = chunkAux (l.drop 16).length (l.drop 16) :=
          ih m (by omega) (l.drop 16) (by omega)
        rw [h1, h2]
      · cases hk : l.length with
        | zero => simp only [chunkAux, if_neg h16]
        | succ m => simp only [chunkAux, if_neg h16]

theorem chunk_small (l : Bytes) (h : l.length < 16) : chunk l = ([], l) := by
  unfold chunk
  cases hl : l.length with
  | zero => rfl
  | succ m => simp only [chunkAux, hl ▸ h, if_neg (by omega : ¬ 16 ≤ l.length)]

theorem chunk_step (l : Bytes) (h : 16 ≤ l.length) :
    chunk l = (l.take 16 :: (chunk (l.drop 16)).1, (chunk (l.drop 16)).2) := by
  unfold chunk
  obtain ⟨m, hm⟩ : ∃ m, l.length = m + 1 := ⟨l.length - 1, by omega⟩
  rw [hm]
  simp only [chunkAux, h, if_true]
  have hdl : (l.drop 16).length = l.length - 16 := by simp
  rw [chunkAux_fuel m (l.drop 16) (by omega)]

/-- Induction along the block structure of a byte string. -/
theorem chunk_rec (motive : Bytes → Prop)
    (base : ∀ l, l.length < 16 → motive l)
    (step : ∀ l, 16 ≤ l.length → motive (List.drop 16 l) → motive l) :
    ∀ l, motive l := by
  intro l
  generalize h : l.length = n
  induction n using Nat.strong_induction_on generalizing l with
  | _ n ih =>
    by_cases h16 : 16 ≤ l.length
    · exact step l h16 (ih (l.drop 16).length (by simp; omega) _ rfl)
    · exact base l (by omega)

theorem chunk_blocks_len : ∀ l : Bytes, ∀ b ∈ (chunk l).1, b.length = 16 := by
  apply chunk_rec (fun l => ∀ b ∈ (chunk l).1, b.length = 16)
  · intro l hl b hb
    rw [chunk_small l hl] at hb
    simp at hb
  · intro l hl ih b hb
    rw [chunk_step l hl] at hb
    rcases List.mem_cons.mp hb with h | h
    · subst h; simp; omega
    · exact ih b h

theorem chunk_tail_len : ∀ l : Bytes, (chunk l).2.length = l.length % 16 := by
  apply chunk_rec (fun l => (chunk l).2.length = l.length % 16)
  · intro l hl
    rw [chunk_small l hl]
    exact (Nat.mod_eq_of_lt hl).symm
  · intro l hl ih
    rw [chunk_step l hl]
    simp only [ih]
    simp only [List.length_drop]
    omega

theorem chunk_flatten : ∀ l : Bytes, (chunk l).1.flatten ++ (chunk l).2 = l := by
  apply chunk_rec (fun l => (chunk l).1.flatten ++ (chunk l).2 = l)
  · intro l hl
    rw [chunk_small l hl]
    simp
  · intro l hl ih
    rw [chunk_step l hl]
    simp only [List.flatten_cons, List.append_assoc, ih]
    exact List.take_append_drop 16 l

theorem chunk_join_append : ∀ (bs : List Bytes) (t : Bytes),
    (∀ b ∈ bs, b.length = 16) →
    chunk (bs.flatten ++ t) = (bs ++ (chunk t).1, (chunk t).2) := by
  intro bs
  induction bs with
  | nil => intro t _; simp
  | cons b bs ih =>
    intro t hb
    have hb16 : b.length = 16 := hb b (List.mem_cons_self b bs)
    have hrest : ∀ x ∈ bs, x.length = 16 := fun x hx => hb x (List.mem_cons_of_mem b hx)
    have hlen : 16 ≤ (b ++ (bs.flatten ++ t)).length := by
      simp [hb16]
    rw [List.flatten_cons, List.append_assoc, chunk_step _ hlen]
    have htake : (b ++ (bs.flatten ++ t)).take 16 = b := by
      rw [← hb16]
      exact List.take_left b (bs.flatten ++ t)
    have hdrop : (b ++ (bs.flatten ++ t)).drop 16 = bs.flatten ++ t := by
      rw [← hb16]
      exact List.drop_left b (bs.flatten ++ t)
    rw [htake, hdrop, ih t hrest]
    simp

theorem chunk_append (a d : Bytes) :
    chunk (a ++ d) =
      ((chunk a).1 ++ (chunk ((chunk a).2 ++ d)).1, (chunk ((chunk a).2 ++ d)).2) := by
  conv_lhs => rw [← chunk_flatten a]
  rw [List.append_assoc]
  exact chunk_join_append (chunk a).1 ((chunk a).2 ++ d) (chunk_blocks_len a)

theorem chunk_flatten_length (l : Bytes) :
    (chunk l).1.flatten.length = l.length - l.length % 16 := by
  have h := congrArg List.length (chunk_flatten l)
  rw [List.length_append, chunk_tail_len] at h
  omega

theorem take_aligned_eq_flatten (l : Bytes) :
    l.take (l.length / 16 * 16) = (chunk l).1.flatten := by
  have hflen : (chunk l).1.flatten.length = l.length / 16 * 16 := by
    rw [chunk_flatten_length]; omega
  have h := List.take_left (chunk l).1.flatten (chunk l).2
  rw [chunk_flatten] at h
  rw [← hflen]
  exact h

theorem chunk_take (l : Bytes) :
    chunk (l.take (l.length / 16 * 16)) = ((chunk l).1, []) := by
  rw [take_aligned_eq_flatten, ← List.append_nil (chunk l).1.flatten,
      chunk_join_append (chunk l).1 [] (chunk_blocks_len l)]
  simp [chunk_small [] (by simp)]

theorem natToBytes_length (n : Nat) : ∀ x, (natToBytes n x).length = n := by
  induction n with
  | zero => intro x; rfl
  | succ n ih => intro x; simp [natToBytes, ih]

theorem natToBytes_split (b : Nat) : ∀ (a x : Nat),
    natToBytes (a + b) x =
      natToBytes a (x / 2 ^ (8 * b)) ++ natToBytes b (x % 2 ^ (8 * b)) := by
  induction b with
  | zero => intro a x; simp [natToBytes]
  | succ b ih =>
    intro a x
    have hpow : (2 : Nat) ^ (8 * (b + 1)) = 256 * 2 ^ (8 * b) := by
      rw [show 8 * (b + 1) = 8 + 8 * b by omega, pow_add]
      norm_num
    have hd : x / 256 / 2 ^ (8 * b) = x / 2 ^ (8 * (b + 1)) := by
      rw [Nat.div_div_eq_div_mul, hpow]
    have hm1 : x % 2 ^ (8 * (b + 1)) / 256 = x / 256 % 2 ^ (8 * b) := by
      rw [hpow]
      exact Nat.mod_mul_right_div_self x 256 (2 ^ (8 * b))
    have hm2 : x % 2 ^ (8 * (b + 1)) % 256 = x % 256 := by
      rw [hpow]
      exact Nat.mod_mod_of_dvd x (dvd_mul_right 256 (2 ^ (8 * b)))
    have lhs : natToBytes (a + (b + 1)) x = natToBytes (a + b) (x / 256) ++ [x % 256] := by
      rw [show a + (b + 1) = (a + b) + 1 by omega]
      rfl
    rw [lhs, ih a (x / 256), hd]
    conv_rhs => rw [show natToBytes (b + 1) (x % 2 ^ (8 * (b + 1))) =
      natToBytes b (x % 2 ^ (8 * (b + 1)) / 256) ++ [x % 2 ^ (8 * (b + 1)) % 256] from rfl]
    rw [hm1, hm2, List.append_assoc]

theorem natToBytes_drop (a b x : Nat) :
    (natToBytes (a + b) x).drop a = natToBytes b (x % 2 ^ (8 * b)) := by
  rw [natToBytes_split b a x]
  have h := List.drop_left (natToBytes a (x / 2 ^ (8 * b))) (natToBytes b (x % 2 ^ (8 * b)))
  rw [natToBytes_length] at h
  exact h

theorem chunk_drop (l : Bytes) : l.drop (l.length / 16 * 16) = (chunk l).2 := by
  have hflen : (chunk l).1.flatten.length = l.length / 16 * 16 := by
    rw [chunk_flatten_length]; omega
  have h := List.drop_left (chunk l).1.flatten (chunk l).2
  rw [chunk_flatten] at h
  rw [← hflen]
  exact h

/-- C6: for every 16-byte Ktop and every bottom in 0..63, the source's
`long_to_bytes(bytes_to_long(stretch) >> (64 - bottom), 24)[8:]` equals the
spec's Offset_0, the 128 bits of Stretch starting `bottom` bits from the
top. -/
theorem rawOffset0_refines_spec (ktop : Bytes) (bottom : Nat)
    (_hk : ktop.length = 16) (hb : bottom < 64) :
    rawOffset0 ktop bottom = specOffset0 ktop bottom := by
  unfold rawOffset0 specOffset0
  set S := bytesToNat (ktop ++ strxor (ktop.take 8) ((ktop.drop 1).take 8)) with hS
  have h24 : (natToBytes 24 (S >>> (64 - bottom))).drop 8 =
      natToBytes 16 (S >>> (64 - bottom) % 2 ^ 128) := by
    have := natToBytes_drop 8 16 (S >>> (64 - bottom))
    norm_num at this
    exact this
  rw [h24]
  refine congrArg (natToBytes 16) ?_
  rw [Nat.shiftLeft_eq, Nat.shiftRight_eq_div_pow, Nat.shiftRight_eq_div_pow]
  have e1 : (2 : Nat) ^ 192 = 2 ^ (192 - bottom) * 2 ^ bottom := by
    have h : 192 - bottom + bottom = 192 := by omega
    conv_lhs => rw [← h]
    rw [pow_add]
  have e2 : S * 2 ^ bottom % 2 ^ 192 = S % 2 ^ (192 - bottom) * 2 ^ bottom := by
    rw [e1]
    exact Nat.mul_mod_mul_right (2 ^ bottom) S (2 ^ (192 - bottom))
  have e3 : (2 : Nat) ^ 64 = 2 ^ bottom * 2 ^ (64 - bottom) := by
    have h : bottom + (64 - bottom) = 64 := by omega
    conv_lhs => rw [← h]
    rw [pow_add]
  have e4 : S % 2 ^ (192 - bottom) * 2 ^ bottom / 2 ^ 64 =
      S % 2 ^ (192 - bottom) / 2 ^ (64 - bottom) := by
    rw [e3, ← Nat.div_div_eq_div_mul,
        Nat.mul_div_cancel _ (Nat.pos_pow_of_pos bottom (by norm_num))]
  have e5 : (2 : Nat) ^ (192 - bottom) = 2 ^ (64 - bottom) * 2 ^ 128 := by
    have h : 64 - bottom + 128 = 192 - bottom := by omega
    conv_lhs => rw [← h]
    rw [pow_add]
  have e6 : S % 2 ^ (192 - bottom) / 2 ^ (64 - bottom) =
      S / 2 ^ (64 - bottom) % 2 ^ 128 := by
    rw [e5]
    exact Nat.mod_mul_right_div_self S (2 ^ (64 - bottom)) (2 ^ 128)
  rw [e2, e4, e6]

/-- Witness for C6 at a concrete Ktop and bottom. -/
theorem rawOffset0_refines_spec_witness :
    ([0, 1, 2, 3, 4, 5, 6, 7, 8, 9, 10, 11, 12, 13, 14, 15] : Bytes).length = 16 ∧
    13 < 64 ∧
    rawOffset0 [0, 1, 2, 3, 4, 5, 6, 7, 8, 9, 10, 11, 12, 13, 14, 15] 13 =
      specOffset0 [0, 1, 2, 3, 4, 5, 6, 7, 8, 9, 10, 11, 12, 13, 14, 15] 13 :=
  ⟨by decide, by decide,
   rawOffset0_refines_spec [0, 1, 2, 3, 4, 5, 6, 7, 8, 9, 10, 11, 12, 13, 14, 15] 13
     (by decide) (by decide)⟩

/-- C5 counterexample: for the one-byte nonce `[0xAA]` and tag length 16,
the block handed to the cipher is not `first || zeros(15 - len N) || 0x01
|| N`, and that concatenation does not have length 16 (it has 17 bytes):
the source (line 169) inserts `14 - len(N)` zero bytes and masks the low
six bits of byte 15 before encrypting it. -/
theorem nonceBlock_claim_false :
    ¬ (handedNonceBlock 16 [170] = specNonceBlock 16 [170] ∧
       (specNonceBlock 16 [170]).length = 16) := by
  decide

/-- C5 amended: the nonce block is `first || zeros(14 - len N) || 0x01 || N`
with `first = (tag_len*8 mod 128) << 1`, and the block handed to the block
cipher - its first 15 bytes followed by its byte 15 with the low six bits
cleared - has total length 16 bytes. -/
theorem nonceBlock_correct (N : Bytes) (t : Nat)
    (hN1 : 1 ≤ N.length) (hN2 : N.length ≤ 15) (ht1 : 8 ≤ t) (ht2 : t ≤ 16) :
    nonceBlock t N =
      [((t * 8) % 128) <<< 1] ++ List.replicate (14 - N.length) 0 ++ [1] ++ N ∧
    (handedNonceBlock t N).length = 16 := by
  constructor
  · unfold nonceBlock
    have hfirst : (t <<< 4) &&& 0xFF = ((t * 8) % 128) <<< 1 := by
      interval_cases t <;> rfl
    rw [hfirst]
  · unfold handedNonceBlock nonceBlock
    simp only [List.length_append, List.length_take, List.length_append,
      List.length_cons, List.length_replicate, List.length_nil]
    simp
    omega

theorem transcrypt_fields (P : BlockProc) (s : Sess) (inp : Option Bytes) :
    ((transcrypt P s inp).2).next = s.next ∧
    ((transcrypt P s inp).2).macTag = s.macTag ∧
    ((transcrypt P s inp).2).macLen = s.macLen ∧
    ((transcrypt P s inp).2).cacheA = s.cacheA := by
  cases inp
  · simp [transcrypt]
  · unfold transcrypt
    dsimp only
    split_ifs <;> simp

theorem chunk_single (d : Bytes) (h : d.length = 16) : chunk d = ([d], []) := by
  rw [chunk_step d (by omega)]
  rw [← h, List.take_length, List.drop_length, chunk_small [] (by simp)]

theorem procBlocks_append (P : BlockProc) : ∀ (xs ys : List Bytes) (c : Core),
    procBlocks P c (xs ++ ys) =
      ((procBlocks P c xs).1 ++ (procBlocks P (procBlocks P c xs).2 ys).1,
       (procBlocks P (procBlocks P c xs).2 ys).2) := by
  intro xs
  induction xs with
  | nil => intro ys c; simp [procBlocks]
  | cons x xs ih =>
    intro ys c
    simp only [List.cons_append, procBlocks]
    rw [List.append_eq, ih]

theorem procData_aligned (P : BlockProc) (c : Core) (d : Bytes)
    (h : d.length % 16 = 0) :
    procData P c d =
      ((procBlocks P c (chunk d).1).1.flatten, (procBlocks P c (chunk d).1).2) := by
  have ht : (chunk d).2 = [] := List.length_eq_zero.mp (by rw [chunk_tail_len]; omega)
  simp [procData, ht]

theorem procData_single (P : BlockProc) (c : Core) (d : Bytes) (h : d.length = 16) :
    procData P c d = P.step c d := by
  unfold procData
  rw [chunk_single d h]
  simp [procBlocks]

theorem OCB_update_aligned (EK : Bytes → Bytes) (c : Core) (d : Bytes)
    (h : d.length % 16 = 0) :
    OCB_update EK c d = List.foldl (absorbBlockStep EK) c (chunk d).1 := by
  have ht : (chunk d).2 = [] := List.length_eq_zero.mp (by rw [chunk_tail_len]; omega)
  simp [OCB_update, ht]

theorem OCB_update_single (EK : Bytes → Bytes) (c : Core) (d : Bytes)
    (h : d.length = 16) : OCB_update EK c d = absorbBlockStep EK c d := by
  unfold OCB_update
  rw [chunk_single d h]
  simp

/-- The buffering layer of `_transcrypt` on a data call: the combined
effect on cache and core is that of all full blocks of `cache ++ data`,
with the remainder as the new cache. -/
theorem transcrypt_some (P : BlockProc) (s : Sess) (d : Bytes)
    (hc : s.cacheP.length < 16) :
    transcrypt P s (some d) =
      ((procBlocks P s.core (chunk (s.cacheP ++ d)).1).1.flatten,
       { s with core := (procBlocks P s.core (chunk (s.cacheP ++ d)).1).2,
                cacheP := (chunk (s.cacheP ++ d)).2 }) := by
  unfold transcrypt
  dsimp only
  by_cases h0 : 0 < s.cacheP.length
  · rw [if_pos h0]
    by_cases h1 : (s.cacheP ++ d.take (min (16 - s.cacheP.length) d.length)).length < 16
    · rw [if_pos h1]
      have hdlt : d.length < 16 - s.cacheP.length := by
        rw [List.length_append, List.length_take] at h1
        omega
      have hmin : min (16 - s.cacheP.length) d.length = d.length := by omega
      have htd : d.take (min (16 - s.cacheP.length) d.length) = d := by
        rw [hmin]
        exact List.take_length d
      rw [htd]
      have hsm : chunk (s.cacheP ++ d) = ([], s.cacheP ++ d) := by
        apply chunk_small
        rw [List.length_append]
        omega
      rw [hsm]
      rfl
    · rw [if_neg h1]
      have h16 : 16 - s.cacheP.length ≤ d.length := by
        rw [List.length_append, List.length_take] at h1
        omega
      have hc1len : (s.cacheP ++ d.take (min (16 - s.cacheP.length) d.length)).length = 16 := by
        rw [List.length_append, List.length_take]
        omega
      have hsplit : s.cacheP ++ d =
          (s.cacheP ++ d.take (min (16 - s.cacheP.length) d.length)) ++
            d.drop (min (16 - s.cacheP.length) d.length) := by
        rw [List.append_assoc, List.take_append_drop]
      have hch : chunk (s.cacheP ++ d) =
          ((s.cacheP ++ d.take (min (16 - s.cacheP.length) d.length)) ::
             (chunk (d.drop (min (16 - s.cacheP.length) d.length))).1,
           (chunk (d.drop (min (16 - s.cacheP.length) d.length))).2) := by
        rw [hsplit]
        have hj := chunk_join_append
          [s.cacheP ++ d.take (min (16 - s.cacheP.length) d.length)]
          (d.drop (min (16 - s.cacheP.length) d.length))
          (by intro b hb; rw [List.mem_singleton] at hb; rw [hb, hc1len])
        simpa using hj
      rw [hch]
      have htake : ((d.drop (min (16 - s.cacheP.length) d.length)).take
          ((d.drop (min (16 - s.cacheP.length) d.length)).length / 16 * 16)).length % 16 = 0 := by
        rw [List.length_take]
        have := Nat.div_mul_le_self (d.drop (min (16 - s.cacheP.length) d.length)).length 16
        omega
      rw [procData_single P s.core _ hc1len, procData_aligned P _ _ htake,
          chunk_take, chunk_drop]
      simp only [procBlocks, List.flatten_cons]
  · rw [if_neg h0]
    have hcp : s.cacheP = [] := List.length_eq_zero.mp (by omega)
    have htake : (d.take (d.length / 16 * 16)).length % 16 = 0 := by
      rw [List.length_take]
      have := Nat.div_mul_le_self d.length 16
      omega
    rw [procData_aligned P s.core _ htake, chunk_take, chunk_drop, hcp,
        List.nil_append]

theorem transcrypt_none (P : BlockProc) (s : Sess) :
    transcrypt P s none =
      ((procData P s.core s.cacheP).1,
       { s with core := (procData P s.core s.cacheP).2, cacheP := [] }) := rfl

/-- The buffering layer of `update`: the combined effect on cache and core
is that of all full blocks of `cache ++ data`, with the remainder as the
new cache. -/
theorem update_normal (EK : Bytes → Bytes) (s : Sess) (ad : Bytes)
    (hm : Op.update ∈ s.next) (hc : s.cacheA.length < 16) :
    update EK s ad =
      (.ok (),
       { s with
         next := updNext,
         core := List.foldl (absorbBlockStep EK) s.core (chunk (s.cacheA ++ ad)).1,
         cacheA := (chunk (s.cacheA ++ ad)).2 }) := by
  unfold update
  rw [if_pos hm]
  dsimp only
  by_cases h0 : 0 < s.cacheA.length
  · rw [if_pos h0]
    by_cases h1 : (s.cacheA ++ ad.take (min (16 - s.cacheA.length) ad.length)).length < 16
    · rw [if_pos h1]
      have hdlt : ad.length < 16 - s.cacheA.length := by
        rw [List.length_append, List.length_take] at h1
        omega
      have hmin : min (16 - s.cacheA.length) ad.length = ad.length := by omega
      have htd : ad.take (min (16 - s.cacheA.length) ad.length) = ad := by
        rw [hmin]
        exact List.take_length ad
      rw [htd]
      have hsm : chunk (s.cacheA ++ ad) = ([], s.cacheA ++ ad) := by
        apply chunk_small
        rw [List.length_append]
        omega
      rw [hsm]
      rfl
    · rw [if_neg h1]
      have h16 : 16 - s.cacheA.length ≤ ad.length := by
        rw [List.length_append, List.length_take] at h1
        omega
      have hc1len : (s.cacheA ++ ad.take (min (16 - s.cacheA.length) ad.length)).length = 16 := by
        rw [List.length_append, List.length_take]
        omega
      have hsplit : s.cacheA ++ ad =
          (s.cacheA ++ ad.take (min (16 - s.cacheA.length) ad.length)) ++
            ad.drop (min (16 - s.cacheA.length) ad.length) := by
        rw [List.append_assoc, List.take_append_drop]
      have hch : chunk (s.cacheA ++ ad) =
          ((s.cacheA ++ ad.take (min (16 - s.cacheA.length) ad.length)) ::
             (chunk (ad.drop (min (16 - s.cacheA.length) ad.length))).1,
           (chunk (ad.drop (min (16 - s.cacheA.length) ad.length))).2) := by
        rw [hsplit]
        have hj := chunk_join_append
          [s.cacheA ++ ad.take (min (16 - s.cacheA.length) ad.length)]
          (ad.drop (min (16 - s.cacheA.length) ad.length))
          (by intro b hb; rw [List.mem_singleton] at hb; rw [hb, hc1len])
        simpa using hj
      rw [hch]
      have htake : ((ad.drop (min (16 - s.cacheA.length) ad.length)).take
          ((ad.drop (min (16 - s.cacheA.length) ad.length)).length / 16 * 16)).length % 16 = 0 := by
        rw [List.length_take]
        have := Nat.div_mul_le_self (ad.drop (min (16 - s.cacheA.length) ad.length)).length 16
        omega
      rw [OCB_update_single EK s.core _ hc1len, OCB_update_aligned EK _ _ htake,
          chunk_take, chunk_drop]
      simp only [List.foldl_cons]
  · rw [if_neg h0]
    have hcp : s.cacheA = [] := List.length_eq_zero.mp (by omega)
    have htake : (ad.take (ad.length / 16 * 16)).length % 16 = 0 := by
      rw [List.length_take]
      have := Nat.div_mul_le_self ad.length 16
      omega
    rw [OCB_update_aligned EK s.core _ htake, chunk_take, chunk_drop, hcp,
        List.nil_append]

theorem OCB_update_nil (EK : Bytes → Bytes) (c : Core) : OCB_update EK c [] = c := rfl

theorem encrypt_some (EK : Bytes → Bytes) (s : Sess) (d : Bytes)
    (hm : Op.encrypt ∈ s.next) (hc : s.cacheP.length < 16) :
    encrypt EK s (some d) =
      (.ok (procBlocks (OCB_encrypt EK) s.core (chunk (s.cacheP ++ d)).1).1.flatten,
       { s with
         next := [Op.encrypt, Op.digest],
         core := (procBlocks (OCB_encrypt EK) s.core (chunk (s.cacheP ++ d)).1).2,
         cacheP := (chunk (s.cacheP ++ d)).2 }) := by
  unfold encrypt
  rw [if_pos hm]
  dsimp only
  rw [transcrypt_some _ _ _ (by simpa using hc)]

theorem encrypt_none (EK : Bytes → Bytes) (s : Sess) (hm : Op.encrypt ∈ s.next) :
    encrypt EK s none =
      (.ok (procData (OCB_encrypt EK) s.core s.cacheP).1,
       { s with
         next := [Op.digest],
         core := (procData (OCB_encrypt EK) s.core s.cacheP).2,
         cacheP := [] }) := by
  unfold encrypt
  rw [if_pos hm]
  rfl

theorem decrypt_some (EK DK : Bytes → Bytes) (s : Sess) (d : Bytes)
    (hm : Op.decrypt ∈ s.next) (hc : s.cacheP.length < 16) :
    decrypt EK DK s (some d) =
      (.ok (procBlocks (OCB_decrypt EK DK) s.core (chunk (s.cacheP ++ d)).1).1.flatten,
       { s with
         next := [Op.decrypt, Op.digest],
         core := (procBlocks (OCB_decrypt EK DK) s.core (chunk (s.cacheP ++ d)).1).2,
         cacheP := (chunk (s.cacheP ++ d)).2 }) := by
  unfold decrypt
  rw [if_pos hm]
  dsimp only
  rw [transcrypt_some _ _ _ (by simpa using hc)]

theorem decrypt_none (EK DK : Bytes → Bytes) (s : Sess) (hm : Op.decrypt ∈ s.next) :
    decrypt EK DK s none =
      (.ok (procData (OCB_decrypt EK DK) s.core s.cacheP).1,
       { s with
         next := [Op.verify],
         core := (procData (OCB_decrypt EK DK) s.core s.cacheP).2,
         cacheP := [] }) := by
  unfold decrypt
  rw [if_pos hm]
  rfl

theorem digest_normal (EK : Bytes → Bytes) (s : Sess) (hm : Op.digest ∈ s.next)
    (hp : s.cacheP = []) (hmt : s.macTag = none) :
    digest EK s =
      (.ok ((OCB_digest EK (OCB_update EK s.core s.cacheA)).take s.macLen),
       { s with
         next := [Op.digest],
         core := OCB_update EK s.core s.cacheA,
         cacheA := [],
         macTag := some ((OCB_digest EK (OCB_update EK s.core s.cacheA)).take s.macLen) }) := by
  obtain ⟨c0, ml, mt, ca, cp, nx⟩ := s
  dsimp only at hp hmt hm ⊢
  subst hp hmt
  cases ca with
  | nil => simp [digest, computeMacTag, hm, OCB_update_nil]
  | cons a l => simp [digest, computeMacTag, hm]

theorem verify_normal_ok (EK : Bytes → Bytes) (s : Sess) (recv : Bytes)
    (hm : Op.verify ∈ s.next) (hp : s.cacheP = []) (hmt : s.macTag = none)
    (hr : recv = (OCB_digest EK (OCB_update EK s.core s.cacheA)).take s.macLen) :
    verify EK s recv =
      (.ok (),
       { s with
         next := [Op.verify],
         core := OCB_update EK s.core s.cacheA,
         cacheA := [],
         macTag := some recv }) := by
  obtain ⟨c0, ml, mt, ca, cp, nx⟩ := s
  dsimp only at hp hmt hm hr ⊢
  subst hp hmt hr
  cases ca with
  | nil => simp [verify, computeMacTag, hm, OCB_update_nil]
  | cons a l => simp [verify, computeMacTag, hm]

/-- Feeding any sequence of plaintext chunks equals processing all full
blocks of the cache followed by the concatenated chunks, with the
remainder buffered. -/
theorem runEncrypts_go (EK : Bytes → Bytes) : ∀ (ps : List Bytes) (s : Sess),
    Op.encrypt ∈ s.next → s.cacheP.length < 16 →
    runEncrypts EK s ps =
      .ok ((procBlocks (OCB_encrypt EK) s.core (chunk (s.cacheP ++ ps.flatten)).1).1.flatten,
        { s with
          next := if ps.isEmpty then s.next else [Op.encrypt, Op.digest],
          core := (procBlocks (OCB_encrypt EK) s.core (chunk (s.cacheP ++ ps.flatten)).1).2,
          cacheP := (chunk (s.cacheP ++ ps.flatten)).2 }) := by
  intro ps
  induction ps with
  | nil =>
    intro s hm hc
    simp only [runEncrypts, List.flatten_nil, List.append_nil, List.isEmpty_nil, if_true]
    rw [chunk_small s.cacheP hc]
    rfl
  | cons p ps ih =>
    intro s hm hc
    rw [runEncrypts, encrypt_some EK s p hm hc]
    have hc1 : ((chunk (s.cacheP ++ p)).2).length < 16 := by
      rw [chunk_tail_len]
      omega
    dsimp only
    rw [ih _ (by simp) hc1]
    dsimp only
    have hsplit : s.cacheP ++ (p :: ps).flatten = (s.cacheP ++ p) ++ ps.flatten := by
      rw [List.flatten_cons, List.append_assoc]
    rw [hsplit, chunk_append (s.cacheP ++ p) ps.flatten]
    dsimp only
    rw [procBlocks_append, List.flatten_append]
    simp

/-- Decryption counterpart of `runEncrypts_go`. -/
theorem runDecrypts_go (EK DK : Bytes → Bytes) : ∀ (cs : List Bytes) (s : Sess),
    Op.decrypt ∈ s.next → s.cacheP.length < 16 →
    runDecrypts EK DK s cs =
      .ok ((procBlocks (OCB_decrypt EK DK) s.core (chunk (s.cacheP ++ cs.flatten)).1).1.flatten,
        { s with
          next := if cs.isEmpty then s.next else [Op.decrypt, Op.digest],
          core := (procBlocks (OCB_decrypt EK DK) s.core (chunk (s.cacheP ++ cs.flatten)).1).2,
          cacheP := (chunk (s.cacheP ++ cs.flatten)).2 }) := by
  intro cs
  induction cs with
  | nil =>
    intro s hm hc
    simp only [runDecrypts, List.flatten_nil, List.append_nil, List.isEmpty_nil, if_true]
    rw [chunk_small s.cacheP hc]
    rfl
  | cons p cs ih =>
    intro s hm hc
    rw [runDecrypts, decrypt_some EK DK s p hm hc]
    have hc1 : ((chunk (s.cacheP ++ p)).2).length < 16 := by
      rw [chunk_tail_len]
      omega
    dsimp only
    rw [ih _ (by simp) hc1]
    dsimp only
    have hsplit : s.cacheP ++ (p :: cs).flatten = (s.cacheP ++ p) ++ cs.flatten := by
      rw [List.flatten_cons, List.append_assoc]
    rw [hsplit, chunk_append (s.cacheP ++ p) cs.flatten]
    dsimp only
    rw [procBlocks_append, List.flatten_append]
    simp

/-- Feeding any sequence of associated-data chunks equals absorbing all
full blocks of the cache followed by the concatenated chunks, with the
remainder buffered. -/
theorem runUpdates_go (EK : Bytes → Bytes) : ∀ (as' : List Bytes) (s : Sess),
    Op.update ∈ s.next → s.cacheA.length < 16 →
    runUpdates EK s as' =
      .ok { s with
            next := if as'.isEmpty then s.next else updNext,
            core := List.foldl (absorbBlockStep EK) s.core (chunk (s.cacheA ++ as'.flatten)).1,
            cacheA := (chunk (s.cacheA ++ as'.flatten)).2 } := by
  intro as'
  induction as' with
  | nil =>
    intro s hm hc
    simp only [runUpdates, List.flatten_nil, List.append_nil, List.isEmpty_nil, if_true]
    rw [chunk_small s.cacheA hc]
    rfl
  | cons a as' ih =>
    intro s hm hc
    rw [runUpdates, update_normal EK s a hm hc]
    have hc1 : ((chunk (s.cacheA ++ a)).2).length < 16 := by
      rw [chunk_tail_len]
      omega
    dsimp only
    rw [ih _ (by simp [updNext]) hc1]
    dsimp only
    have hsplit : s.cacheA ++ (a :: as').flatten = (s.cacheA ++ a) ++ as'.flatten := by
      rw [List.flatten_cons, List.append_assoc]
    rw [hsplit, chunk_append (s.cacheA ++ a) as'.flatten]
    dsimp only
    rw [List.foldl_append]
    simp

/-- The one-shot pipeline reduces to the mathematical normal form. -/
theorem oneShot_nf (EK : Bytes → Bytes) (nonce : Bytes) (macLen : Nat) (A P : Bytes) :
    oneShotEncDigest EK nonce macLen A P = .ok (ocbNF EK nonce macLen A P) := by
  unfold oneShotEncDigest
  rw [update_normal EK _ A (by simp [ocbNew, initNext]) (by simp [ocbNew])]
  dsimp only [andThen]
  unfold encrypt_and_digest
  rw [encrypt_some EK _ P (by simp [updNext]) (by simp [ocbNew])]
  dsimp only [andThen]
  rw [encrypt_none EK _ (by simp)]
  dsimp only [andThen]
  rw [digest_normal EK _ (by simp) (by simp [ocbNew]) (by simp [ocbNew])]
  dsimp only [andThen]
  unfold ocbNF ocbNew OCB_start_operation
  dsimp only
  simp only [List.nil_append]

/-- The streamed pipeline reduces to the same mathematical normal form on
the concatenated inputs. -/
theorem stream_nf (EK : Bytes → Bytes) (nonce : Bytes) (macLen : Nat)
    (As Ps : List Bytes) :
    streamEncDigest EK nonce macLen As Ps =
      .ok (ocbNF EK nonce macLen As.flatten Ps.flatten) := by
  unfold streamEncDigest
  rw [runUpdates_go EK As _ (by simp [ocbNew, initNext]) (by simp [ocbNew])]
  dsimp only
  rw [runEncrypts_go EK Ps _
    (by dsimp only; split <;> simp [ocbNew, initNext, updNext]) (by simp [ocbNew])]
  dsimp only
  rw [encrypt_none EK _
    (by dsimp only
        split
        · split <;> simp [ocbNew, initNext, updNext]
        · simp)]
  dsimp only [andThen]
  rw [digest_normal EK _ (by simp) (by simp [ocbNew]) (by simp [ocbNew])]
  dsimp only [andThen]
  unfold ocbNF ocbNew OCB_start_operation
  dsimp only
  simp only [List.nil_append]

/-- C7: for every way of splitting the associated data and the plaintext
into chunks fed through successive `update` and `encrypt` calls, the
concatenated ciphertext (including the final `encrypt(None)`) and the
`digest()` tag are identical to a one-shot `encrypt_and_digest` after a
single `update`. -/
theorem streaming_equivalence (EK : Bytes → Bytes) (nonce : Bytes) (macLen : Nat)
    (As Ps : List Bytes) :
    streamEncDigest EK nonce macLen As Ps =
      oneShotEncDigest EK nonce macLen As.flatten Ps.flatten := by
  rw [stream_nf, oneShot_nf]

theorem double_length (x : Bytes) : (double x).length = 16 := by
  simp [double, natToBytes_length]

theorem Ltree_length (EK : Bytes → Bytes) : ∀ i, (Ltree EK i).length = 16 := by
  intro i
  cases i <;> simp [Ltree, double_length]

theorem Ldollar_length (EK : Bytes → Bytes) : (Ldollar EK).length = 16 :=
  double_length _

theorem procData_nil (Pr : BlockProc) (c : Core) : procData Pr c [] = ([], c) := rfl

theorem procData_tail (Pr : BlockProc) (c : Core) (t : Bytes)
    (ht : t.length < 16) (hne : t ≠ []) : procData Pr c t = Pr.final c t := by
  unfold procData
  rw [chunk_small t ht]
  simp [procBlocks, hne]

theorem encBlockStep_offM (EK : Bytes → Bytes) (c : Core) (p : Bytes)
    (h : c.offM.length = 16) : ((encBlockStep EK c p).2).offM.length = 16 := by
  simp [encBlockStep, strxor_length, Ltree_length, h]

theorem encBlockStep_out_length (EK : Bytes → Bytes)
    (hEK : ∀ x : Bytes, x.length = 16 → (EK x).length = 16)
    (c : Core) (p : Bytes) (hoff : c.offM.length = 16) (hp : p.length = 16) :
    ((encBlockStep EK c p).1).length = 16 := by
  have hoff2 : (strxor c.offM (Ltree EK (ntz (c.idxM + 1)))).length = 16 := by
    simp [strxor_length, Ltree_length, hoff]
  have harg : (strxor p (strxor c.offM (Ltree EK (ntz (c.idxM + 1))))).length = 16 := by
    simp [strxor_length, hoff2, hp]
  simp [encBlockStep, strxor_length, hoff2, hEK _ harg]

theorem encTailStep_out_length (EK : Bytes → Bytes)
    (hEK : ∀ x : Bytes, x.length = 16 → (EK x).length = 16)
    (c : Core) (t : Bytes) (hoff : c.offM.length = 16) (ht : t.length ≤ 16) :
    ((encTailStep EK c t).1).length = t.length := by
  have hls : (Lstar EK).length = 16 := hEK _ (by simp)
  have hoff2 : (strxor c.offM (Lstar EK)).length = 16 := by
    simp [strxor_length, hoff, hls]
  have hpad : (EK (strxor c.offM (Lstar EK))).length = 16 := hEK _ hoff2
  simp [encTailStep, strxor_length, List.length_take, hpad]
  omega

theorem procBlocks_enc_facts (EK : Bytes → Bytes)
    (hEK : ∀ x : Bytes, x.length = 16 → (EK x).length = 16) :
    ∀ (ps : List Bytes) (c : Core), c.offM.length = 16 → (∀ p ∈ ps, p.length = 16) →
    (∀ o ∈ (procBlocks (OCB_encrypt EK) c ps).1, o.length = 16) ∧
    ((procBlocks (OCB_encrypt EK) c ps).2).offM.length = 16 := by
  intro ps
  induction ps with
  | nil => intro c hoff _; simpa [procBlocks] using hoff
  | cons p ps ih =>
    intro c hoff hps
    have hp : p.length = 16 := hps p (List.mem_cons_self p ps)
    have hrest : ∀ q ∈ ps, q.length = 16 := fun q hq => hps q (List.mem_cons_of_mem p hq)
    have hoff1 : ((encBlockStep EK c p).2).offM.length = 16 := encBlockStep_offM EK c p hoff
    obtain ⟨ho, hs⟩ := ih (encBlockStep EK c p).2 hoff1 hrest
    constructor
    · intro o hmem
      simp only [procBlocks, OCB_encrypt] at hmem
      rcases List.mem_cons.mp hmem with h | h
      · rw [h]
        exact encBlockStep_out_length EK hEK c p hoff hp
      · exact ho o h
    · simpa [procBlocks, OCB_encrypt] using hs

theorem dec_enc_block (EK DK : Bytes → Bytes)
    (hEK : ∀ x : Bytes, x.length = 16 → (EK x).length = 16)
    (hDK : ∀ x : Bytes, x.length = 16 → DK (EK x) = x)
    (c : Core) (hoff : c.offM.length = 16) (p : Bytes) (hp : p.length = 16) :
    decBlockStep EK DK c (encBlockStep EK c p).1 = (p, (encBlockStep EK c p).2) := by
  unfold decBlockStep encBlockStep
  dsimp only
  set off := strxor c.offM (Ltree EK (ntz (c.idxM + 1))) with hoffdef
  have hofflen : off.length = 16 := by
    simp [hoffdef, strxor_length, hoff, Ltree_length]
  have hX : (strxor p off).length = 16 := by
    simp [strxor_length, hp, hofflen]
  have h1 : strxor (strxor off (EK (strxor p off))) off = EK (strxor p off) :=
    strxor_cancel_out off (EK (strxor p off)) (by rw [hofflen, hEK _ hX])
  rw [h1, hDK _ hX]
  have h2 : strxor off (strxor p off) = p := by
    rw [strxor_comm p off]
    exact strxor_cancel_left off p (by rw [hofflen, hp])
  rw [h2]

theorem dec_enc_blocks (EK DK : Bytes → Bytes)
    (hEK : ∀ x : Bytes, x.length = 16 → (EK x).length = 16)
    (hDK : ∀ x : Bytes, x.length = 16 → DK (EK x) = x) :
    ∀ (ps : List Bytes) (c : Core), c.offM.length = 16 →
    (∀ p ∈ ps, p.length = 16) →
    procBlocks (OCB_decrypt EK DK) c (procBlocks (OCB_encrypt EK) c ps).1 =
      (ps, (procBlocks (OCB_encrypt EK) c ps).2) := by
  intro ps
  induction ps with
  | nil => intro c _ _; rfl
  | cons p ps ih =>
    intro c hoff hps
    have hp := hps p (List.mem_cons_self p ps)
    have hrest : ∀ q ∈ ps, q.length = 16 := fun q hq => hps q (List.mem_cons_of_mem p hq)
    have hstep := dec_enc_block EK DK hEK hDK c hoff p hp
    have hoff1 := encBlockStep_offM EK c p hoff
    have hih := ih (encBlockStep EK c p).2 hoff1 hrest
    have e1 : procBlocks (OCB_encrypt EK) c (p :: ps) =
        ((encBlockStep EK c p).1 ::
           (procBlocks (OCB_encrypt EK) (encBlockStep EK c p).2 ps).1,
         (procBlocks (OCB_encrypt EK) (encBlockStep EK c p).2 ps).2) := rfl
    have e2 : ∀ (ct : Bytes) (cts : List Bytes),
        procBlocks (OCB_decrypt EK DK) c (ct :: cts) =
          ((decBlockStep EK DK c ct).1 ::
             (procBlocks (OCB_decrypt EK DK) (decBlockStep EK DK c ct).2 cts).1,
           (procBlocks (OCB_decrypt EK DK) (decBlockStep EK DK c ct).2 cts).2) :=
      fun ct cts => rfl
    rw [e1]
    dsimp only
    rw [e2, hstep]
    dsimp only
    rw [hih]

theorem dec_enc_tailstep (EK : Bytes → Bytes)
    (hEK : ∀ x : Bytes, x.length = 16 → (EK x).length = 16)
    (c : Core) (hoff : c.offM.length = 16) (t : Bytes) (ht : t.length ≤ 16) :
    decTailStep EK c (encTailStep EK c t).1 = (t, (encTailStep EK c t).2) := by
  unfold decTailStep encTailStep
  dsimp only
  set off := strxor c.offM (Lstar EK) with hoffdef
  have hls : (Lstar EK).length = 16 := hEK _ (by simp)
  have hofflen : off.length = 16 := by
    simp [hoffdef, strxor_length, hoff, hls]
  have hpad : (EK off).length = 16 := hEK _ hofflen
  have hct : (strxor t ((EK off).take t.length)).length = t.length := by
    simp [strxor_length, List.length_take, hpad]
    omega
  rw [hct]
  have hq : ((EK off).take t.length).length = t.length := by
    simp [List.length_take, hpad]
    omega
  have h2 : strxor (strxor t ((EK off).take t.length)) ((EK off).take t.length) = t :=
    strxor_cancel_right _ _ (by rw [hq])
  rw [h2]

theorem procData_enc_tail_out_length (EK : Bytes → Bytes)
    (hEK : ∀ x : Bytes, x.length = 16 → (EK x).length = 16)
    (c : Core) (hoff : c.offM.length = 16) (t : Bytes) (ht : t.length < 16) :
    ((procData (OCB_encrypt EK) c t).1).length = t.length := by
  by_cases hne : t = []
  · subst hne
    rfl
  · rw [procData_tail _ _ _ ht hne]
    exact encTailStep_out_length EK hEK c t hoff (by omega)

theorem dec_enc_tail_data (EK DK : Bytes → Bytes)
    (hEK : ∀ x : Bytes, x.length = 16 → (EK x).length = 16)
    (c : Core) (hoff : c.offM.length = 16) (t : Bytes) (ht : t.length < 16) :
    procData (OCB_decrypt EK DK) c (procData (OCB_encrypt EK) c t).1 =
      (t, (procData (OCB_encrypt EK) c t).2) := by
  by_cases hne : t = []
  · subst hne
    rfl
  · rw [procData_tail _ _ _ ht hne]
    have hlen : ((OCB_encrypt EK).final c t).1.length = t.length :=
      encTailStep_out_length EK hEK c t hoff (by omega)
    have hne2 : ((OCB_encrypt EK).final c t).1 ≠ [] := by
      intro h0
      rw [h0] at hlen
      simp only [List.length_nil] at hlen
      exact hne (List.length_eq_zero.mp hlen.symm)
    rw [procData_tail _ _ _ (by rw [hlen]; omega) hne2]
    exact dec_enc_tailstep EK hEK c hoff t (by omega)

theorem absorb_foldl_offM (EK : Bytes → Bytes) :
    ∀ (bs : List Bytes) (c : Core),
    (List.foldl (absorbBlockStep EK) c bs).offM = c.offM := by
  intro bs
  induction bs with
  | nil => intro c; rfl
  | cons b bs ih => intro c; rw [List.foldl_cons, ih]; rfl

theorem offset0_length (EK : Bytes → Bytes) (macLen : Nat) (nonce : Bytes) :
    (offset0 EK macLen nonce).length = 16 := by
  simp [offset0, rawOffset0, natToBytes_length]

/-- Decrypting and verifying the exact ciphertext and tag that encryption
of `Pp` produces, starting from the same session state, recovers `Pp`. -/
theorem decrypt_and_verify_of_enc (EK DK : Bytes → Bytes)
    (hEK : ∀ x : Bytes, x.length = 16 → (EK x).length = 16)
    (hDK : ∀ x : Bytes, x.length = 16 → DK (EK x) = x)
    (s : Sess) (hd : Op.decrypt ∈ s.next) (hp : s.cacheP = [])
    (hmt : s.macTag = none) (hoff : s.core.offM.length = 16) (Pp : Bytes) :
    decrypt_and_verify EK DK s
      ((procBlocks (OCB_encrypt EK) s.core (chunk Pp).1).1.flatten ++
        (procData (OCB_encrypt EK)
          (procBlocks (OCB_encrypt EK) s.core (chunk Pp).1).2 (chunk Pp).2).1)
      ((OCB_digest EK (OCB_update EK
          (procData (OCB_encrypt EK)
            (procBlocks (OCB_encrypt EK) s.core (chunk Pp).1).2 (chunk Pp).2).2
          s.cacheA)).take s.macLen) = Except.ok Pp := by
  have hblocks16 : ∀ b ∈ (chunk Pp).1, b.length = 16 := chunk_blocks_len Pp
  obtain ⟨houts, hoffM⟩ :=
    procBlocks_enc_facts EK hEK (chunk Pp).1 s.core hoff hblocks16
  have htaillen : (chunk Pp).2.length < 16 := by
    rw [chunk_tail_len]
    omega
  have htctlen : ((procData (OCB_encrypt EK)
      (procBlocks (OCB_encrypt EK) s.core (chunk Pp).1).2 (chunk Pp).2).1).length < 16 := by
    rw [procData_enc_tail_out_length EK hEK _ hoffM _ htaillen]
    exact htaillen
  have hchunk : chunk ((procBlocks (OCB_encrypt EK) s.core (chunk Pp).1).1.flatten ++
      (procData (OCB_encrypt EK)
        (procBlocks (OCB_encrypt EK) s.core (chunk Pp).1).2 (chunk Pp).2).1) =
      ((procBlocks (OCB_encrypt EK) s.core (chunk Pp).1).1,
       (procData (OCB_encrypt EK)
         (procBlocks (OCB_encrypt EK) s.core (chunk Pp).1).2 (chunk Pp).2).1) := by
    rw [chunk_join_append _ _ houts, chunk_small _ htctlen]
    simp
  unfold decrypt_and_verify
  rw [decrypt_some EK DK s _ hd (by rw [hp]; simp)]
  dsimp only [andThen]
  rw [hp, List.nil_append, hchunk]
  dsimp only
  rw [dec_enc_blocks EK DK hEK hDK (chunk Pp).1 s.core hoff hblocks16]
  dsimp only
  rw [decrypt_none EK DK _ (by simp)]
  dsimp only [andThen]
  rw [dec_enc_tail_data EK DK hEK _ hoffM _ htaillen]
  dsimp only
  rw [verify_normal_ok EK _ _ (by simp) (by simp) (by simpa using hmt) rfl]
  dsimp only [andThen]
  rw [chunk_flatten]

/-- C4: for every block cipher pair (forward and inverse), nonce of 1..15
bytes, tag length 8..16, associated data and plaintext, feeding the
ciphertext and tag produced by `update(A); encrypt_and_digest(P)` into
`update(A); decrypt_and_verify` on a fresh session returns `P` and raises
no error. -/
theorem roundtrip (EK DK : Bytes → Bytes)
    (hEK : ∀ x : Bytes, x.length = 16 → (EK x).length = 16)
    (hDK : ∀ x : Bytes, x.length = 16 → DK (EK x) = x)
    (nonce : Bytes) (_hn1 : 1 ≤ nonce.length) (_hn2 : nonce.length ≤ 15)
    (macLen : Nat) (_hm1 : 8 ≤ macLen) (_hm2 : macLen ≤ 16)
    (A P : Bytes) :
    ∃ ct tag, oneShotEncDigest EK nonce macLen A P = Except.ok (ct, tag) ∧
      oneShotDecVerify EK DK nonce macLen A ct tag = Except.ok P := by
  refine ⟨(ocbNF EK nonce macLen A P).1, (ocbNF EK nonce macLen A P).2, ?_, ?_⟩
  · rw [oneShot_nf]
  · unfold oneShotDecVerify
    rw [update_normal EK _ A (by simp [ocbNew, initNext]) (by simp [ocbNew])]
    dsimp only [andThen]
    have happ := decrypt_and_verify_of_enc EK DK hEK hDK
      { ocbNew EK nonce macLen with
        next := updNext,
        core := List.foldl (absorbBlockStep EK) (ocbNew EK nonce macLen).core
          (chunk ((ocbNew EK nonce macLen).cacheA ++ A)).1,
        cacheA := (chunk ((ocbNew EK nonce macLen).cacheA ++ A)).2 }
      (by simp [updNext]) (by simp [ocbNew]) (by simp [ocbNew])
      (by
        dsimp only
        rw [absorb_foldl_offM]
        simp [ocbNew, OCB_start_operation, offset0_length]) P
    dsimp only at happ
    convert happ using 2

theorem flatten_length_uniform : ∀ (L : List Bytes),
    (∀ o ∈ L, o.length = 16) → L.flatten.length = 16 * L.length := by
  intro L
  induction L with
  | nil => intro _; simp
  | cons o L ih =>
    intro h
    have ho : o.length = 16 := h o (List.mem_cons_self o L)
    have hrest : ∀ q ∈ L, q.length = 16 := fun q hq => h q (List.mem_cons_of_mem o hq)
    simp [ho, ih hrest]
    ring

theorem procBlocks_out_count (Pr : BlockProc) : ∀ (bs : List Bytes) (c : Core),
    ((procBlocks Pr c bs).1).length = bs.length := by
  intro bs
  induction bs with
  | nil => intro c; rfl
  | cons b bs ih => intro c; simp [procBlocks, ih]

theorem decBlockStep_offM (EK DK : Bytes → Bytes) (c : Core) (ct : Bytes)
    (h : c.offM.length = 16) : ((decBlockStep EK DK c ct).2).offM.length = 16 := by
  simp [decBlockStep, strxor_length, Ltree_length, h]

theorem decBlockStep_out_length (EK DK : Bytes → Bytes)
    (hDK : ∀ x : Bytes, x.length = 16 → (DK x).length = 16)
    (c : Core) (ct : Bytes) (hoff : c.offM.length = 16) (hct : ct.length = 16) :
    ((decBlockStep EK DK c ct).1).length = 16 := by
  have hoff2 : (strxor c.offM (Ltree EK (ntz (c.idxM + 1)))).length = 16 := by
    simp [strxor_length, Ltree_length, hoff]
  have harg : (strxor ct (strxor c.offM (Ltree EK (ntz (c.idxM + 1))))).length = 16 := by
    simp [strxor_length, hoff2, hct]
  simp [decBlockStep, strxor_length, hoff2, hDK _ harg]

theorem procBlocks_dec_facts (EK DK : Bytes → Bytes)
    (hDK : ∀ x : Bytes, x.length = 16 → (DK x).length = 16) :
    ∀ (cs : List Bytes) (c : Core), c.offM.length = 16 → (∀ b ∈ cs, b.length = 16) →
    (∀ o ∈ (procBlocks (OCB_decrypt EK DK) c cs).1, o.length = 16) ∧
    ((procBlocks (OCB_decrypt EK DK) c cs).2).offM.length = 16 := by
  intro cs
  induction cs with
  | nil => intro c hoff _; simpa [procBlocks] using hoff
  | cons b cs ih =>
    intro c hoff hcs
    have hb : b.length = 16 := hcs b (List.mem_cons_self b cs)
    have hrest : ∀ q ∈ cs, q.length = 16 := fun q hq => hcs q (List.mem_cons_of_mem b hq)
    have hoff1 := decBlockStep_offM EK DK c b hoff
    obtain ⟨ho, hs⟩ := ih (decBlockStep EK DK c b).2 hoff1 hrest
    constructor
    · intro o hmem
      simp only [procBlocks, OCB_decrypt] at hmem
      rcases List.mem_cons.mp hmem with h | h
      · rw [h]
        exact decBlockStep_out_length EK DK hDK c b hoff hb
      · exact ho o h
    · simpa [procBlocks, OCB_decrypt] using hs

theorem decTailStep_out_length (EK : Bytes → Bytes)
    (hEK : ∀ x : Bytes, x.length = 16 → (EK x).length = 16)
    (c : Core) (t : Bytes) (hoff : c.offM.length = 16) (ht : t.length ≤ 16) :
    ((decTailStep EK c t).1).length = t.length := by
  have hls : (Lstar EK).length = 16 := hEK _ (by simp)
  have hoff2 : (strxor c.offM (Lstar EK)).length = 16 := by
    simp [strxor_length, hoff, hls]
  have hpad : (EK (strxor c.offM (Lstar EK))).length = 16 := hEK _ hoff2
  simp [decTailStep, strxor_length, List.length_take, hpad]
  omega

theorem procData_dec_tail_out_length (EK DK : Bytes → Bytes)
    (hEK : ∀ x : Bytes, x.length = 16 → (EK x).length = 16)
    (c : Core) (hoff : c.offM.length = 16) (t : Bytes) (ht : t.length < 16) :
    ((procData (OCB_decrypt EK DK) c t).1).length = t.length := by
  by_cases hne : t = []
  · subst hne
    rfl
  · rw [procData_tail _ _ _ ht hne]
    exact decTailStep_out_length EK hEK c t hoff (by omega)

/-- Witness for C4 at a concrete cipher, nonce, tag length and inputs. -/
theorem roundtrip_witness :
    ∃ ct tag, oneShotEncDigest id [1] 16 [5] [1, 2, 3] = Except.ok (ct, tag) ∧
      oneShotDecVerify id id [1] 16 [5] ct tag = Except.ok [1, 2, 3] :=
  roundtrip id id (fun _ h => h) (fun _ _ => rfl) [1] (by decide) (by decide)
    16 (by decide) (by decide) [5] [1, 2, 3]

/-- C8: for every sequence of `encrypt(data)` calls followed by a final
`encrypt(None)`, the total number of ciphertext bytes returned across all
calls equals the total number of plaintext bytes fed in; symmetrically for
`decrypt`. -/
theorem length_preservation (EK DK : Bytes → Bytes)
    (hEK : ∀ x : Bytes, x.length = 16 → (EK x).length = 16)
    (hDK : ∀ x : Bytes, x.length = 16 → (DK x).length = 16)
    (nonce : Bytes) (macLen : Nat) (Ps : List Bytes) :
    (∀ out s1, streamEnc EK nonce macLen Ps = .ok (out, s1) →
        out.length = Ps.flatten.length) ∧
    (∀ out s1, streamDec EK DK nonce macLen Ps = .ok (out, s1) →
        out.length = Ps.flatten.length) := by
  have hoff0 : (ocbNew EK nonce macLen).core.offM.length = 16 := by
    simp [ocbNew, OCB_start_operation, offset0_length]
  have hcp0 : (ocbNew EK nonce macLen).cacheP = [] := rfl
  have hblocks := chunk_blocks_len Ps.flatten
  have htail : (chunk Ps.flatten).2.length < 16 := by
    rw [chunk_tail_len]
    omega
  have hflat : (chunk Ps.flatten).1.flatten.length = 16 * (chunk Ps.flatten).1.length :=
    flatten_length_uniform _ hblocks
  have hXlen : Ps.flatten.length =
      16 * (chunk Ps.flatten).1.length + (chunk Ps.flatten).2.length := by
    have hfl := congrArg List.length (chunk_flatten Ps.flatten)
    rw [List.length_append, hflat] at hfl
    omega
  constructor
  · intro out s1 h
    unfold streamEnc at h
    rw [runEncrypts_go EK Ps _ (by simp [ocbNew, initNext]) (by simp [ocbNew])] at h
    dsimp only at h
    rw [hcp0, List.nil_append] at h
    rw [encrypt_none EK _
      (by dsimp only; split <;> simp [ocbNew, initNext])] at h
    dsimp only at h
    rw [Except.ok.injEq, Prod.mk.injEq] at h
    obtain ⟨h1, -⟩ := h
    rw [← h1, List.length_append]
    obtain ⟨houts, hoffM⟩ :=
      procBlocks_enc_facts EK hEK (chunk Ps.flatten).1
        (ocbNew EK nonce macLen).core hoff0 hblocks
    have hlen1 : ((procBlocks (OCB_encrypt EK) (ocbNew EK nonce macLen).core
        (chunk Ps.flatten).1).1).flatten.length = 16 * (chunk Ps.flatten).1.length := by
      rw [flatten_length_uniform _ houts, procBlocks_out_count]
    have hlen2 := procData_enc_tail_out_length EK hEK
      (procBlocks (OCB_encrypt EK) (ocbNew EK nonce macLen).core
        (chunk Ps.flatten).1).2 hoffM (chunk Ps.flatten).2 htail
    rw [hlen1, hlen2]
    omega
  · intro out s1 h
    unfold streamDec at h
    rw [runDecrypts_go EK DK Ps _ (by simp [ocbNew, initNext]) (by simp [ocbNew])] at h
    dsimp only at h
    rw [hcp0, List.nil_append] at h
    rw [decrypt_none EK DK _
      (by dsimp only; split <;> simp [ocbNew, initNext])] at h
    dsimp only at h
    rw [Except.ok.injEq, Prod.mk.injEq] at h
    obtain ⟨h1, -⟩ := h
    rw [← h1, List.length_append]
    obtain ⟨houts, hoffM⟩ :=
      procBlocks_dec_facts EK DK hDK (chunk Ps.flatten).1
        (ocbNew EK nonce macLen).core hoff0 hblocks
    have hlen1 : ((procBlocks (OCB_decrypt EK DK) (ocbNew EK nonce macLen).core
        (chunk Ps.flatten).1).1).flatten.length = 16 * (chunk Ps.flatten).1.length := by
      rw [flatten_length_uniform _ houts, procBlocks_out_count]
    have hlen2 := procData_dec_tail_out_length EK DK hEK
      (procBlocks (OCB_decrypt EK DK) (ocbNew EK nonce macLen).core
        (chunk Ps.flatten).1).2 hoffM (chunk Ps.flatten).2 htail
    rw [hlen1, hlen2]
    omega

/-- Witness for C8 on a concrete streamed session. -/
theorem length_preservation_witness :
    (okOr ([], sampleSess) (streamEnc id [1] 16 [[1, 2, 3], [4, 5]])).1.length =
      ([[1, 2, 3], [4, 5]] : List Bytes).flatten.length :=
  (length_preservation id id (fun _ h => h) (fun _ h => h) [1] 16
    [[1, 2, 3], [4, 5]]).1
    (okOr ([], sampleSess) (streamEnc id [1] 16 [[1, 2, 3], [4, 5]])).1
    (okOr ([], sampleSess) (streamEnc id [1] 16 [[1, 2, 3], [4, 5]])).2
    (by rfl)

theorem absorb_foldl_chkM (EK : Bytes → Bytes) :
    ∀ (bs : List Bytes) (c : Core),
    (List.foldl (absorbBlockStep EK) c bs).chkM = c.chkM := by
  intro bs
  induction bs with
  | nil => intro c; rfl
  | cons b bs ih => intro c; rw [List.foldl_cons, ih]; rfl

theorem OCB_update_offM (EK : Bytes → Bytes) (c : Core) (d : Bytes) :
    (OCB_update EK c d).offM = c.offM := by
  unfold OCB_update
  dsimp only
  split_ifs
  · exact absorb_foldl_offM EK _ c
  · have e : (adFinalStep EK (List.foldl (absorbBlockStep EK) c (chunk d).1)
        (chunk d).2).offM = (List.foldl (absorbBlockStep EK) c (chunk d).1).offM := rfl
    rw [e, absorb_foldl_offM]

theorem OCB_update_chkM (EK : Bytes → Bytes) (c : Core) (d : Bytes) :
    (OCB_update EK c d).chkM = c.chkM := by
  unfold OCB_update
  dsimp only
  split_ifs
  · exact absorb_foldl_chkM EK _ c
  · have e : (adFinalStep EK (List.foldl (absorbBlockStep EK) c (chunk d).1)
        (chunk d).2).chkM = (List.foldl (absorbBlockStep EK) c (chunk d).1).chkM := rfl
    rw [e, absorb_foldl_chkM]

theorem OCB_update_small_sumA (EK : Bytes → Bytes)
    (hEK : ∀ x : Bytes, x.length = 16 → (EK x).length = 16)
    (c : Core) (t : Bytes) (ht : t.length < 16)
    (hsum : c.sumA.length = 16) (hoffA : c.offA.length = 16) :
    ((OCB_update EK c t).sumA).length = 16 := by
  unfold OCB_update
  rw [chunk_small t ht]
  dsimp only
  by_cases hne : t = []
  · rw [if_pos hne]
    exact hsum
  · rw [if_neg hne]
    have hls : (Lstar EK).length = 16 := hEK _ (by simp)
    have hoff' : (strxor c.offA (Lstar EK)).length = 16 := by
      simp [strxor_length, hoffA, hls]
    have hpb : (padBlock t).length = 16 := by
      simp [padBlock]
      omega
    have harg : (strxor (padBlock t) (strxor c.offA (Lstar EK))).length = 16 := by
      simp [strxor_length, hpb, hoff']
    simp [adFinalStep, strxor_length, hsum, hEK _ harg]

/-- C10: once `digest()` has returned a tag, a further `digest()` call on
the resulting session returns the same tag of length `mac_len` and leaves
the session unchanged. -/
theorem digest_idempotent (EK : Bytes → Bytes)
    (hEK : ∀ x : Bytes, x.length = 16 → (EK x).length = 16)
    (s : Sess) (hWF : WFSess s) (tag : Bytes) (s1 : Sess)
    (h : digest EK s = (.ok tag, s1)) :
    digest EK s1 = (.ok tag, s1) ∧ tag.length = s.macLen := by
  obtain ⟨hoffM, hchkM, hsumA, hoffA, hcA, hml, hmt⟩ := hWF
  by_cases h1 : Op.digest ∈ s.next
  case neg =>
    rw [show digest EK s = (.error .InvalidSequence, s) from by
      unfold digest; rw [if_neg h1]] at h
    exact absurd (congrArg Prod.fst h) (by simp)
  by_cases h2 : 0 < s.cacheP.length
  case pos =>
    rw [show digest EK s = (.error .PendingData, s) from by
      unfold digest; rw [if_pos h1, if_pos h2]] at h
    exact absurd (congrArg Prod.fst h) (by simp)
  have hp : s.cacheP = [] := List.length_eq_zero.mp (by omega)
  cases hmtc : s.macTag with
  | some t0 =>
    have heq : digest EK s = (.ok t0, { s with next := [Op.digest] }) := by
      unfold digest
      rw [if_pos h1, if_neg h2]
      dsimp only
      rw [hmtc]
      simp
    rw [heq] at h
    rw [Prod.mk.injEq, Except.ok.injEq] at h
    obtain ⟨htag, hs1⟩ := h
    subst htag
    subst hs1
    refine ⟨?_, ?_⟩
    · unfold digest
      rw [if_pos (by simp), if_neg (by simpa using h2)]
      dsimp only
      rw [hmtc]
      simp
    · rw [hmtc] at hmt
      exact hmt
  | none =>
    rw [digest_normal EK s h1 hp hmtc] at h
    rw [Prod.mk.injEq, Except.ok.injEq] at h
    obtain ⟨htag, hs1⟩ := h
    subst htag
    subst hs1
    refine ⟨?_, ?_⟩
    · unfold digest
      rw [if_pos (by simp), if_neg (by simpa using h2)]
      dsimp only
      simp
    · have hchk' := OCB_update_chkM EK s.core s.cacheA
      have hoff' := OCB_update_offM EK s.core s.cacheA
      have hsum' := OCB_update_small_sumA EK hEK s.core s.cacheA hcA hsumA hoffA
      have harg : (strxor (OCB_update EK s.core s.cacheA).chkM
          (strxor (OCB_update EK s.core s.cacheA).offM (Ldollar EK))).length = 16 := by
        rw [hchk', hoff']
        simp [strxor_length, hchkM, hoffM, Ldollar_length]
      have hdig : (OCB_digest EK (OCB_update EK s.core s.cacheA)).length = 16 := by
        simp [OCB_digest, strxor_length, hEK _ harg, hsum']
      simp [List.length_take, hdig]
      omega

/-- Witness for C10 on a concrete finalized session. -/
theorem digest_idempotent_witness :
    digest id ((digest id sampleFinal).2) =
      (.ok (okOr [] (digest id sampleFinal).1), (digest id sampleFinal).2) ∧
    (okOr [] (digest id sampleFinal).1).length = sampleFinal.macLen :=
  digest_idempotent id (fun _ h => h) sampleFinal
    ⟨by decide, by decide, by decide, by decide, by decide, by decide, by trivial⟩
    (okOr [] (digest id sampleFinal).1) ((digest id sampleFinal).2) (by rfl)

theorem transcrypt_cacheP_lt (P : BlockProc) (s : Sess) (inp : Option Bytes)
    (_hP : s.cacheP.length < 16) : ((transcrypt P s inp).2).cacheP.length < 16 := by
  cases inp with
  | none => simp [transcrypt]
  | some ind =>
    unfold transcrypt
    dsimp only
    split_ifs with h1 h2
    · simpa using h2
    · simp only
      rw [List.length_drop]
      omega
    · simp only
      rw [List.length_drop]
      omega

theorem computeMacTag_next (EK : Bytes → Bytes) (s : Sess) :
    (computeMacTag EK s).next = s.next := by
  unfold computeMacTag
  split_ifs <;> simp

theorem computeMacTag_cacheP (EK : Bytes → Bytes) (s : Sess) :
    (computeMacTag EK s).cacheP = s.cacheP := by
  unfold computeMacTag
  split_ifs <;> simp

/-- C1: evaluation of the code at the failing input - on a fresh session
(identity block cipher, nonce `[1]`, tag length 16), `decrypt` of one full
16-byte block succeeds, leaves `digest` in the allowed-next list (source
line 359), and a subsequent `digest()` returns a tag instead of raising
InvalidSequence. -/
theorem digest_allowed_after_decrypt :
    isOkB (decrypt id id sampleSess (some (List.replicate 16 0))).1 = true ∧
    Op.digest ∈ ((decrypt id id sampleSess (some (List.replicate 16 0))).2).next ∧
    isOkB (digest id ((decrypt id id sampleSess (some (List.replicate 16 0))).2)).1
      = true :=
  ⟨rfl, by decide, rfl⟩

/-- C2 counterexample: on a fresh session, `encrypt` of one full 16-byte
block leaves the message cache empty, and `digest()` called directly
afterwards - without any finalizing `encrypt(None)` - succeeds instead of
raising InvalidSequence. -/
theorem digest_after_encrypt_no_final :
    isOkB (encrypt id sampleSess (some (List.replicate 16 3))).1 = true ∧
    ((encrypt id sampleSess (some (List.replicate 16 3))).2).cacheP = [] ∧
    isOkB (digest id ((encrypt id sampleSess (some (List.replicate 16 3))).2)).1
      = true :=
  ⟨rfl, rfl, rfl⟩

/-- C2 amended: `verify()` is only reachable through `decrypt(None)` - after
`decrypt(data)` it raises InvalidSequence - while `digest()` after
`encrypt(data)` requires only an empty message cache: it succeeds without a
finalizing `encrypt(None)` when no bytes are buffered, and raises
PendingData when bytes are buffered. -/
theorem digest_verify_requirements (EK DK : Bytes → Bytes) (s : Sess) :
    (∀ d r s1, decrypt EK DK s (some d) = (.ok r, s1) →
        ∀ tg, (verify EK s1 tg).1 = .error .InvalidSequence) ∧
    (∀ d r s1, encrypt EK s (some d) = (.ok r, s1) →
        (s1.cacheP = [] → isOkB (digest EK s1).1 = true) ∧
        (s1.cacheP ≠ [] → (digest EK s1).1 = .error .PendingData)) := by
  constructor
  · intro d r s1 h tg
    by_cases hd : Op.decrypt ∈ s.next
    · simp only [decrypt, if_pos hd] at h
      rw [Prod.mk.injEq] at h
      obtain ⟨-, h2⟩ := h
      have hnext : s1.next = [Op.decrypt, Op.digest] := by
        rw [← h2]
        exact (transcrypt_fields _ _ _).1
      simp [verify, hnext]
    · simp [decrypt, if_neg hd] at h
  · intro d r s1 h
    by_cases he : Op.encrypt ∈ s.next
    · simp only [encrypt, if_pos he] at h
      rw [Prod.mk.injEq] at h
      obtain ⟨-, h2⟩ := h
      have hnext : s1.next = [Op.encrypt, Op.digest] := by
        rw [← h2]
        exact (transcrypt_fields _ _ _).1
      constructor
      · intro hcp
        simp [digest, hnext, hcp, isOkB]
      · intro hcp
        have hlen : 0 < s1.cacheP.length := by
          cases hc : s1.cacheP with
          | nil => exact absurd hc hcp
          | cons a l => simp [hc]
        simp [digest, hnext, if_pos hlen]
    · simp [encrypt, if_neg he] at h

/-- Witness for C2's amended claim on concrete sessions. -/
theorem digest_verify_requirements_witness :
    (verify id ((decrypt id id sampleSess (some (List.replicate 16 0))).2) []).1
      = Except.error Err.InvalidSequence ∧
    isOkB (digest id ((encrypt id sampleSess (some (List.replicate 16 3))).2)).1
      = true := by
  constructor
  · exact (digest_verify_requirements id id sampleSess).1 (List.replicate 16 0)
      (okOr [] (decrypt id id sampleSess (some (List.replicate 16 0))).1)
      ((decrypt id id sampleSess (some (List.replicate 16 0))).2) (by rfl) []
  · exact ((digest_verify_requirements id id sampleSess).2 (List.replicate 16 3)
      (okOr [] (encrypt id sampleSess (some (List.replicate 16 3))).1)
      ((encrypt id sampleSess (some (List.replicate 16 3))).2) (by rfl)).1 (by rfl)

/-- C3 counterexample: `digest()` on a session with one buffered message
byte raises PendingData, yet the session is not closed - the very next
`encrypt(None)` call on the returned session succeeds instead of raising
InvalidSequence. -/
theorem error_no_close_counterexample :
    (digest id samplePending).1 = Except.error Err.PendingData ∧
    isOkB (encrypt id ((digest id samplePending).2) none).1 = true :=
  ⟨rfl, rfl⟩

/-- C3 amended: an error does not close the session.  `update`, `encrypt`,
`decrypt` and `digest` leave the session exactly as it was when they raise;
`verify` does so for InvalidSequence and PendingData, and on MacMismatch
has already set the allowed-next list to `[verify]` - so a further call
permitted by the unchanged list succeeds rather than raising
InvalidSequence. -/
theorem errors_leave_state (EK DK : Bytes → Bytes) :
    (∀ s ad e s1, update EK s ad = (.error e, s1) → s1 = s) ∧
    (∀ s inp e s1, encrypt EK s inp = (.error e, s1) → s1 = s) ∧
    (∀ s inp e s1, decrypt EK DK s inp = (.error e, s1) → s1 = s) ∧
    (∀ s e s1, digest EK s = (.error e, s1) → s1 = s) ∧
    (∀ s tg s1, verify EK s tg = (.error .MacMismatch, s1) → s1.next = [Op.verify]) ∧
    (∀ s tg e s1, verify EK s tg = (.error e, s1) → e ≠ .MacMismatch → s1 = s) := by
  refine ⟨?_, ?_, ?_, ?_, ?_, ?_⟩
  · intro s ad e s1 h
    by_cases h1 : Op.update ∈ s.next
    · simp only [update, if_pos h1] at h
      split_ifs at h <;> exact absurd (congrArg Prod.fst h) (by simp)
    · simp only [update, if_neg h1] at h
      exact (congrArg Prod.snd h).symm
  · intro s inp e s1 h
    by_cases h1 : Op.encrypt ∈ s.next
    · simp only [encrypt, if_pos h1] at h
      exact absurd (congrArg Prod.fst h) (by simp)
    · simp only [encrypt, if_neg h1] at h
      exact (congrArg Prod.snd h).symm
  · intro s inp e s1 h
    by_cases h1 : Op.decrypt ∈ s.next
    · simp only [decrypt, if_pos h1] at h
      exact absurd (congrArg Prod.fst h) (by simp)
    · simp only [decrypt, if_neg h1] at h
      exact (congrArg Prod.snd h).symm
  · intro s e s1 h
    by_cases h1 : Op.digest ∈ s.next
    · by_cases h2 : 0 < s.cacheP.length
      · simp only [digest, if_pos h1, if_pos h2] at h
        exact (congrArg Prod.snd h).symm
      · simp only [digest, if_pos h1, if_neg h2] at h
        exact absurd (congrArg Prod.fst h) (by simp)
    · simp only [digest, if_neg h1] at h
      exact (congrArg Prod.snd h).symm
  · intro s tg s1 h
    by_cases h1 : Op.verify ∈ s.next
    · by_cases h2 : 0 < s.cacheP.length
      · simp only [verify, if_pos h1, if_pos h2] at h
        exact absurd (congrArg Prod.fst h) (by simp)
      · simp only [verify, if_pos h1, if_neg h2] at h
        split_ifs at h
        · exact absurd (congrArg Prod.fst h) (by simp)
        · have h4 := congrArg Prod.snd h
          dsimp only at h4
          rw [← h4, computeMacTag_next]
        · exact absurd (congrArg Prod.fst h) (by simp)
        · have h4 := congrArg Prod.snd h
          dsimp only at h4
          rw [← h4]
    · simp only [verify, if_neg h1] at h
      exact absurd (congrArg Prod.fst h) (by simp)
  · intro s tg e s1 h he
    by_cases h1 : Op.verify ∈ s.next
    · by_cases h2 : 0 < s.cacheP.length
      · simp only [verify, if_pos h1, if_pos h2] at h
        exact (congrArg Prod.snd h).symm
      · simp only [verify, if_pos h1, if_neg h2] at h
        split_ifs at h
        · exact absurd (congrArg Prod.fst h) (by simp)
        · have h5 := congrArg Prod.fst h
          dsimp only at h5
          rw [Except.error.injEq] at h5
          exact absurd h5.symm he
        · exact absurd (congrArg Prod.fst h) (by simp)
        · have h5 := congrArg Prod.fst h
          dsimp only at h5
          rw [Except.error.injEq] at h5
          exact absurd h5.symm he
    · simp only [verify, if_neg h1] at h
      exact (congrArg Prod.snd h).symm

/-- Witness for C3's amended claim: the failed `digest` of the
counterexample leaves the session unchanged. -/
theorem errors_leave_state_witness :
    (digest id samplePending).2 = samplePending :=
  (errors_leave_state id id).2.2.2.1 samplePending Err.PendingData
    ((digest id samplePending).2) (by rfl)

/-- C9: after any `update`, `encrypt` or `decrypt` call on a session whose
pending buffers hold fewer than 16 bytes, both pending buffers again hold
fewer than 16 bytes, and a fresh session starts with empty buffers. -/
theorem cache_bounds_invariant (EK DK : Bytes → Bytes) (nonce : Bytes)
    (macLen : Nat) (s : Sess)
    (hA : s.cacheA.length < 16) (hP : s.cacheP.length < 16) :
    ((ocbNew EK nonce macLen).cacheA.length < 16 ∧
     (ocbNew EK nonce macLen).cacheP.length < 16) ∧
    (∀ ad, ((update EK s ad).2).cacheA.length < 16 ∧
           ((update EK s ad).2).cacheP.length < 16) ∧
    (∀ inp, ((encrypt EK s inp).2).cacheA.length < 16 ∧
            ((encrypt EK s inp).2).cacheP.length < 16) ∧
    (∀ inp, ((decrypt EK DK s inp).2).cacheA.length < 16 ∧
            ((decrypt EK DK s inp).2).cacheP.length < 16) := by
  refine ⟨⟨by simp [ocbNew], by simp [ocbNew]⟩, ?_, ?_, ?_⟩
  · intro ad
    unfold update
    dsimp only
    split_ifs with h1 h2 h3
    · constructor
      · simpa using h3
      · simpa using hP
    · constructor
      · simp only
        rw [List.length_drop]
        omega
      · simpa using hP
    · constructor
      · simp only
        rw [List.length_drop]
        omega
      · simpa using hP
    · exact ⟨hA, hP⟩
  · intro inp
    unfold encrypt
    dsimp only
    split_ifs with h1
    · constructor
      · rw [(transcrypt_fields _ _ _).2.2.2]
        simpa using hA
      · exact transcrypt_cacheP_lt _ _ _ (by simpa using hP)
    · exact ⟨hA, hP⟩
  · intro inp
    unfold decrypt
    dsimp only
    split_ifs with h1
    · constructor
      · rw [(transcrypt_fields _ _ _).2.2.2]
        simpa using hA
      · exact transcrypt_cacheP_lt _ _ _ (by simpa using hP)
    · exact ⟨hA, hP⟩

/-- Witness for C9 on a concrete session and inputs. -/
theorem cache_bounds_invariant_witness :
    ((update id samplePending [9, 9, 9]).2).cacheA.length < 16 ∧
    ((update id samplePending [9, 9, 9]).2).cacheP.length < 16 :=
  ((cache_bounds_invariant id id [1] 16 samplePending (by decide)
    (by decide)).2.1 [9, 9, 9])

/-- Witness for C5's amended claim at a concrete nonce and tag length. -/
theorem nonceBlock_correct_witness :
    nonceBlock 12 [7, 9] =
      [((12 * 8) % 128) <<< 1] ++ List.replicate (14 - ([7, 9] : Bytes).length) 0 ++
        [1] ++ [7, 9] ∧
    (handedNonceBlock 12 [7, 9]).length = 16 :=
  nonceBlock_correct [7, 9] 12 (by decide) (by decide) (by decide) (by decide)

end OCB

